import Mathlib

/-!
Verification development for the yt_timelapse repository.

The repository is a single-process pipeline: it discovers completed
livestreams on a channel, downloads them, transcodes them into a sped-up
derivative, uploads the result, and records handled source URLs in an
append-only text log so they are never reprocessed.

This file gives a shallow embedding of the relevant parts of the three
Python source files:

* the Processed-Set store, from load_processed_urls and save_processed_url
  in src/app.py (identical copies exist in src/app_old_streams.py);
* candidate discovery, from get_latest_completed_livestream in src/app.py;
* the retry loops, from download_video and upload_video in
  src/app_old_streams.py;
* the two pipeline orchestrators, process_video in src/app.py and
  process_livestream in src/app_old_streams.py, as event-trace semantics;
* the batch lookup get_livestream_info_for_urls in src/app_old_streams.py.

Remote calls and filesystem operations are modelled by explicit inputs
(page lists, detail lookup functions, boolean outcome flags), and code
that catches exceptions is modelled with Except or outcome datatypes.
-/

namespace YtTimelapse

/-! ## String comparison

Python compares strings lexicographically by code point.  The built-in
String order of Lean does not reduce in the kernel, so the embedding uses
its own code-point-lexicographic comparison over the character list. -/

/-- Code-point comparison of characters, as Python compares characters. -/
def charLtB (a b : Char) : Bool := Nat.blt a.toNat b.toNat

/-- Lexicographic comparison of character lists, as Python compares strings. -/
def strLtLB : List Char → List Char → Bool
  | [], [] => false
  | [], _ :: _ => true
  | _ :: _, [] => false
  | a :: as, b :: bs =>
    if charLtB a b then true
    else if charLtB b a then false
    else strLtLB as bs

/-- Lexicographic string comparison by code point (the order Python uses
for the ISO-8601 timestamp strings in this program). -/
def strLtB (a b : String) : Bool := strLtLB a.data b.data

theorem charLtB_true_iff {a b : Char} : charLtB a b = true ↔ a.toNat < b.toNat := by
  rw [show charLtB a b = Nat.blt a.toNat b.toNat from rfl, Nat.blt_eq]

theorem charLtB_false_iff {a b : Char} : charLtB a b = false ↔ ¬ a.toNat < b.toNat := by
  rw [Bool.eq_false_iff, Ne, charLtB_true_iff]

theorem charLtB_eq_of_not {a b : Char} (h1 : charLtB a b = false) (h2 : charLtB b a = false) :
    a = b := by
  rw [charLtB_false_iff] at h1 h2
  simp only [Char.toNat] at h1 h2
  exact Char.ext (UInt32.ext (by omega))

theorem strLtLB_eq_of_not : ∀ {a b : List Char},
    strLtLB a b = false → strLtLB b a = false → a = b
  | [], [], _, _ => rfl
  | [], _ :: _, h1, _ => by simp [strLtLB] at h1
  | _ :: _, [], _, h2 => by simp [strLtLB] at h2
  | a :: as, b :: bs, h1, h2 => by
    by_cases hab : charLtB a b = true
    · simp [strLtLB, hab] at h1
    · by_cases hba : charLtB b a = true
      · simp [strLtLB, hba] at h2
      · have hab' : charLtB a b = false := by simpa using hab
        have hba' : charLtB b a = false := by simpa using hba
        have he : a = b := charLtB_eq_of_not hab' hba'
        simp [strLtLB, hab', hba'] at h1 h2
        have := strLtLB_eq_of_not h1 h2
        rw [he, this]

theorem strLtB_eq_of_not {a b : String} (h1 : strLtB a b = false)
    (h2 : strLtB b a = false) : a = b := by
  cases a with
  | mk da =>
    cases b with
    | mk db =>
      have : da = db := strLtLB_eq_of_not h1 h2
      rw [this]

theorem strLtLB_le_lt_trans : ∀ {a b c : List Char},
    strLtLB b a = false → strLtLB b c = true → strLtLB a c = true
  | [], b, c, _, h2 => by
    cases c with
    | nil =>
      cases b with
      | nil => simp [strLtLB] at h2
      | cons x xs => simp [strLtLB] at h2
    | cons y ys => simp [strLtLB]
  | _ :: _, [], _, h1, _ => by simp [strLtLB] at h1
  | a :: as, b :: bs, [], _, h2 => by simp [strLtLB] at h2
  | a :: as, b :: bs, c :: cs, h1, h2 => by
    by_cases hba : charLtB b a = true
    · simp [strLtLB, hba] at h1
    · have hba' : charLtB b a = false := by simpa using hba
      rw [charLtB_false_iff] at hba'
      by_cases hbc : charLtB b c = true
      · rw [charLtB_true_iff] at hbc
        have hac : charLtB a c = true := charLtB_true_iff.mpr (by omega)
        simp [strLtLB, hac]
      · have hbc' : charLtB b c = false := by simpa using hbc
        by_cases hcb : charLtB c b = true
        · simp [strLtLB, hbc', hcb] at h2
        · have hcb' : charLtB c b = false := by simpa using hcb
          have hbceq : b = c := charLtB_eq_of_not hbc' hcb'
          by_cases hab : charLtB a b = true
          · have hac : charLtB a c = true := hbceq ▸ hab
            simp [strLtLB, hac]
          · have hab' : charLtB a b = false := by simpa using hab
            have hba2 : charLtB b a = false := charLtB_false_iff.mpr hba'
            have habeq : a = b := charLtB_eq_of_not hab' hba2
            subst hbceq
            subst habeq
            simp [strLtLB, strLtLB_le_lt_trans (a := as) (b := bs) (c := cs),
              charLtB_false_iff.mpr (by omega : ¬ a.toNat < a.toNat)] at h1 h2 ⊢
            exact strLtLB_le_lt_trans h1 h2

theorem strLtB_le_lt_trans {a b c : String} (h1 : strLtB b a = false)
    (h2 : strLtB b c = true) : strLtB a c = true :=
  strLtLB_le_lt_trans h1 h2

theorem strLtLB_irrefl : ∀ (a : List Char), strLtLB a a = false
  | [] => rfl
  | a :: as => by
    have h : charLtB a a = false := charLtB_false_iff.mpr (by omega)
    simp [strLtLB, h, strLtLB_irrefl as]

theorem strLtB_irrefl (a : String) : strLtB a a = false := strLtLB_irrefl a.data

theorem strLtLB_asymm : ∀ {a b : List Char},
    strLtLB a b = true → strLtLB b a = false
  | [], [], h => by simp [strLtLB] at h
  | [], _ :: _, _ => by simp [strLtLB]
  | _ :: _, [], h => by simp [strLtLB] at h
  | a :: as, b :: bs, h => by
    by_cases hab : charLtB a b = true
    · rw [charLtB_true_iff] at hab
      have hba : charLtB b a = false := charLtB_false_iff.mpr (by omega)
      have hab' : charLtB a b = true := charLtB_true_iff.mpr hab
      simp [strLtLB, hba, hab']
    · have hab' : charLtB a b = false := by simpa using hab
      by_cases hba : charLtB b a = true
      · simp [strLtLB, hab', hba] at h
      · have hba' : charLtB b a = false := by simpa using hba
        simp [strLtLB, hab', hba'] at h ⊢
        exact strLtLB_asymm h

theorem strLtLB_trans {a b c : List Char} (h1 : strLtLB a b = true)
    (h2 : strLtLB b c = true) : strLtLB a c = true :=
  strLtLB_le_lt_trans (strLtLB_asymm h1) h2

theorem strLtB_trans {a b c : String} (h1 : strLtB a b = true)
    (h2 : strLtB b c = true) : strLtB a c = true :=
  strLtLB_trans h1 h2

theorem strLtB_asymm {a b : String} (h : strLtB a b = true) : strLtB b a = false :=
  strLtLB_asymm h

/-! ## The Processed-Set store

From src/app.py:

    def load_processed_urls():
        try:
            with open(URLS_FILE, "r") as f:
                return set(line.strip() for line in f if line.strip())
        except FileNotFoundError:
            return set()
        except Exception as e:
            logger.error(...)
            return set()

    def save_processed_url(url):
        try:
            with open(URLS_FILE, "a") as f:
                f.write(url + "\n")
        except Exception as e:
            logger.error(...)

The file content is modelled as a String.  The read path opens the file
in text mode, so universal-newline translation applies first (carriage
return and carriage-return-newline each become one newline), then the
content is split at newlines, each line is stripped with the full
CPython whitespace set, and the non-empty results are kept.  The write
path appends the URL plus a newline verbatim (on the POSIX platforms
this program targets, text-mode writes do not translate newlines). -/

/-- Characters removed by Python str.strip() with no argument: the
CPython whitespace set (str.isspace), namely U+0009-U+000D,
U+001C-U+001F, the space, U+0085, U+00A0, U+1680, U+2000-U+200A,
U+2028, U+2029, U+202F, U+205F and U+3000. -/
def isPyWs (ch : Char) : Bool :=
  decide (0x09 ≤ ch.toNat ∧ ch.toNat ≤ 0x0d) ||
  decide (0x1c ≤ ch.toNat ∧ ch.toNat ≤ 0x1f) ||
  decide (ch.toNat = 0x20) || decide (ch.toNat = 0x85) ||
  decide (ch.toNat = 0xa0) || decide (ch.toNat = 0x1680) ||
  decide (0x2000 ≤ ch.toNat ∧ ch.toNat ≤ 0x200a) ||
  decide (ch.toNat = 0x2028) || decide (ch.toNat = 0x2029) ||
  decide (ch.toNat = 0x202f) || decide (ch.toNat = 0x205f) ||
  decide (ch.toNat = 0x3000)

/-- Strip leading and trailing whitespace from a character list, as
Python str.strip() does per line in load_processed_urls. -/
def trimChars (l : List Char) : List Char :=
  ((l.dropWhile isPyWs).reverse.dropWhile isPyWs).reverse

/-- Split a character list at newline characters; models how Python file
iteration plus str.strip() decomposes the log into lines. -/
def splitNl : List Char → List (List Char)
  | [] => [[]]
  | ch :: rest =>
    if ch = '\n' then [] :: splitNl rest
    else
      match splitNl rest with
      | [] => [[ch]]
      | h :: t => (ch :: h) :: t

/-- Universal-newline translation performed by open(..., "r") in text
mode before line iteration: a carriage-return-newline pair and a lone
carriage return each become one newline. -/
def univNl : List Char → List Char
  | [] => []
  | c :: rest =>
    if c = '\r' then
      match rest with
      | [] => ['\n']
      | c2 :: rest2 =>
        if c2 = '\n' then '\n' :: univNl rest2
        else '\n' :: univNl (c2 :: rest2)
    else c :: univNl rest

/-- The lines of already-translated content, stripped, with empty
results discarded. -/
def processedOfL (l : List Char) : List String :=
  ((splitNl l).map (fun x => String.mk (trimChars x))).filter
    (fun s => !(s == ""))

/-- The set of processed URLs read from a log file with the given raw
content (src/app.py line 596): universal-newline translation, line
split, per-line strip, empty lines discarded. -/
def processedOf (content : String) : List String :=
  processedOfL (univNl content.data)

/-- Outcome of opening and reading the log file in load_processed_urls. -/
inductive ReadResult where
  | ok (content : String)
  | notFound
  | ioError
deriving DecidableEq

/-- load_processed_urls (src/app.py lines 592-601): returns the parsed
set on success and the empty set when the file is missing or any other
read error occurs. -/
def load_processed_urls : ReadResult → List String
  | .ok content => processedOf content
  | .notFound => []
  | .ioError => []

/-- Outcome of the append write in save_processed_url. -/
inductive WriteOutcome where
  | ok
  | ioError
deriving DecidableEq

/-- save_processed_url (src/app.py lines 603-609): appends the URL and a
newline on success; on a write error the exception is logged and
swallowed, leaving the log unchanged, and the function still returns
normally. -/
def save_processed_url (content url : String) : WriteOutcome → String
  | .ok => content ++ url ++ "\n"
  | .ioError => content

/-- A log content is well formed when it is empty or newline-terminated;
every content ever produced by save_processed_url from an empty file is
well formed. -/
def logWf (content : String) : Prop :=
  content.data = [] ∨ ∃ m, content.data = m ++ ['\n']

/-- A string is URL-shaped when it is non-empty, free of surrounding
whitespace, and contains neither of the two line terminators of the
universal-newline read (newline and carriage return); every URL this
program builds (mkUrl below) has this shape. -/
def urlWf (u : String) : Prop :=
  u.data ≠ [] ∧ trimChars u.data = u.data ∧ '\n' ∉ u.data ∧ '\r' ∉ u.data

theorem string_mk_inj {a b : List Char} : String.mk a = String.mk b ↔ a = b :=
  ⟨fun h => congrArg String.data h, fun h => h ▸ rfl⟩

theorem string_mk_eq_empty {l : List Char} : String.mk l = "" ↔ l = [] := by
  rw [show ("" : String) = String.mk [] from rfl, string_mk_inj]

theorem splitNl_ne_nil : ∀ (l : List Char), splitNl l ≠ []
  | [] => by simp [splitNl]
  | ch :: rest => by
    by_cases h : ch = '\n'
    · simp [splitNl, h]
    · cases hr : splitNl rest with
      | nil => simp [splitNl, h, hr]
      | cons x xs => simp [splitNl, h, hr]

theorem splitNl_cons_nl (rest : List Char) : splitNl ('\n' :: rest) = [] :: splitNl rest := by
  simp [splitNl]

theorem splitNl_cons_of_ne {c : Char} {rest y : List Char} {ys : List (List Char)}
    (hc : ¬ c = '\n') (h : splitNl rest = y :: ys) :
    splitNl (c :: rest) = (c :: y) :: ys := by
  simp [splitNl, hc, h]

theorem splitNl_line : ∀ (m b : List Char), '\n' ∉ m →
    splitNl (m ++ '\n' :: b) = m :: splitNl b
  | [], b, _ => by simp [splitNl]
  | c :: m', b, h => by
    have hc : ¬ c = '\n' := fun hc => h (by simp [hc])
    have hm : '\n' ∉ m' := fun hm => h (by simp [hm])
    have ih := splitNl_line m' b hm
    rw [List.cons_append, splitNl_cons_of_ne hc ih]

theorem splitNl_term_two_le : ∀ (m : List Char), 2 ≤ (splitNl (m ++ ['\n'])).length
  | [] => by simp [splitNl]
  | c :: m' => by
    cases hx : splitNl (m' ++ ['\n']) with
    | nil => exact absurd hx (splitNl_ne_nil _)
    | cons y ys =>
      by_cases hc : c = '\n'
      · subst hc
        rw [List.cons_append, splitNl_cons_nl, hx]
        simp only [List.length_cons]
        omega
      · have ih := splitNl_term_two_le m'
        rw [hx] at ih
        rw [List.cons_append, splitNl_cons_of_ne hc hx]
        simp only [List.length_cons] at ih ⊢
        omega

theorem splitNl_append_term : ∀ (m b : List Char),
    splitNl ((m ++ ['\n']) ++ b) = (splitNl (m ++ ['\n'])).dropLast ++ splitNl b
  | [], b => by
    rw [List.nil_append, List.singleton_append, splitNl_cons_nl]
    rw [show splitNl ['\n'] = [[], []] from by simp [splitNl]]
    simp
  | c :: m', b => by
    cases hx : splitNl (m' ++ ['\n']) with
    | nil => exact absurd hx (splitNl_ne_nil _)
    | cons y ys =>
      have ih := splitNl_append_term m' b
      rw [hx] at ih
      by_cases hc : c = '\n'
      · subst hc
        rw [List.cons_append, List.cons_append, splitNl_cons_nl, splitNl_cons_nl, ih, hx]
        rw [List.dropLast_cons_of_ne_nil (List.cons_ne_nil y ys)]
        simp
      · have h2 := splitNl_term_two_le m'
        rw [hx] at h2
        have hys : ys ≠ [] := by
          cases ys with
          | nil => simp at h2
          | cons z zs => simp
        rw [List.dropLast_cons_of_ne_nil hys, List.cons_append] at ih
        rw [List.cons_append, List.cons_append, splitNl_cons_of_ne hc ih,
          splitNl_cons_of_ne hc hx]
        rw [List.dropLast_cons_of_ne_nil hys, List.cons_append]

theorem dropWhile_head_false {α : Type} {p : α → Bool} :
    ∀ {l : List α} {x : α} {xs : List α}, l.dropWhile p = x :: xs → p x = false
  | [], x, xs, h => by simp [List.dropWhile_nil] at h
  | y :: ys, x, xs, h => by
    rw [List.dropWhile_cons] at h
    by_cases hy : p y = true
    · rw [if_pos hy] at h
      exact dropWhile_head_false h
    · rw [if_neg hy] at h
      cases h
      simpa using hy

theorem dropWhile_idem {α : Type} {p : α → Bool} :
    ∀ (l : List α), (l.dropWhile p).dropWhile p = l.dropWhile p
  | [] => by simp
  | y :: ys => by
    rw [List.dropWhile_cons]
    by_cases hy : p y = true
    · rw [if_pos hy]
      exact dropWhile_idem ys
    · rw [if_neg hy, List.dropWhile_cons, if_neg hy]

theorem dropWhile_getLast?_of_ne_nil {α : Type} {p : α → Bool} :
    ∀ (l : List α), l.dropWhile p ≠ [] → (l.dropWhile p).getLast? = l.getLast?
  | [], h => by simp at h
  | y :: ys, h => by
    rw [List.dropWhile_cons] at h ⊢
    by_cases hy : p y = true
    · rw [if_pos hy] at h ⊢
      have hys : ys ≠ [] := by
        intro he
        rw [he] at h
        simp at h
      rw [dropWhile_getLast?_of_ne_nil ys h]
      cases ys with
      | nil => exact absurd rfl hys
      | cons z zs => rw [List.getLast?_cons_cons]
    · rw [if_neg hy]

theorem dropWhile_reverse_dropWhile_head {α : Type} {p : α → Bool} (m : List α)
    (hm : ∀ x xs, m = x :: xs → p x = false) :
    ((m.reverse.dropWhile p).reverse).dropWhile p = (m.reverse.dropWhile p).reverse := by
  cases hm2 : m.reverse.dropWhile p with
  | nil => simp
  | cons z zs =>
    cases m with
    | nil => simp at hm2
    | cons x xs =>
      have px : p x = false := hm x xs rfl
      have hne : (x :: xs).reverse.dropWhile p ≠ [] := by rw [hm2]; simp
      have hlast : ((x :: xs).reverse.dropWhile p).getLast? = (x :: xs).reverse.getLast? :=
        dropWhile_getLast?_of_ne_nil _ hne
      rw [List.getLast?_reverse] at hlast
      have hhead : ((x :: xs).reverse.dropWhile p).reverse.head? = some x := by
        rw [List.head?_reverse, hlast]
        simp
      rw [hm2] at hhead
      cases hrev : (z :: zs).reverse with
      | nil => simp at hrev
      | cons w ws =>
        rw [hrev] at hhead
        simp only [List.head?_cons, Option.some_inj] at hhead
        rw [List.dropWhile_cons, hhead, px]
        simp

theorem trimChars_head_keeps (l : List Char) :
    (trimChars l).dropWhile isPyWs = trimChars l :=
  dropWhile_reverse_dropWhile_head (l.dropWhile isPyWs)
    (fun _ _ h => dropWhile_head_false h)

theorem trimChars_idem (l : List Char) : trimChars (trimChars l) = trimChars l := by
  show (((trimChars l).dropWhile isPyWs).reverse.dropWhile isPyWs).reverse = trimChars l
  rw [trimChars_head_keeps l]
  show (((((l.dropWhile isPyWs).reverse.dropWhile isPyWs).reverse).reverse).dropWhile
    isPyWs).reverse = _
  rw [List.reverse_reverse, dropWhile_idem]
  rfl

theorem univNl_cons_other {c : Char} (hc : ¬ c = '\r') (rest : List Char) :
    univNl (c :: rest) = c :: univNl rest := by
  cases rest with
  | nil => rw [univNl.eq_2, if_neg hc]
  | cons c2 r2 => rw [univNl.eq_3, if_neg hc]

theorem univNl_cr_nl (rest : List Char) :
    univNl ('\r' :: '\n' :: rest) = '\n' :: univNl rest := by
  simp [univNl]

theorem univNl_cr_other {c2 : Char} (h : ¬ c2 = '\n') (rest2 : List Char) :
    univNl ('\r' :: c2 :: rest2) = '\n' :: univNl (c2 :: rest2) := by
  simp [univNl, h]

theorem univNl_nocr_line : ∀ (u b : List Char), '\r' ∉ u →
    univNl (u ++ '\n' :: b) = u ++ '\n' :: univNl b
  | [], b, _ => by
    rw [List.nil_append, univNl_cons_other (by decide) b, List.nil_append]
  | c :: u', b, h => by
    have hc : ¬ c = '\r' := fun hh => h (by simp [hh])
    have hm : '\r' ∉ u' := fun hm => h (List.mem_cons_of_mem c hm)
    rw [List.cons_append, univNl_cons_other hc, univNl_nocr_line u' b hm,
      List.cons_append]

theorem univNl_append_term : ∀ (m b : List Char),
    univNl ((m ++ ['\n']) ++ b) = univNl (m ++ ['\n']) ++ univNl b
  | [], b => by
    rw [List.nil_append, List.singleton_append, univNl_cons_other (by decide) b,
      show univNl (['\n'] : List Char) = ['\n'] from rfl, List.singleton_append]
  | c :: m', b => by
    by_cases hc : c = '\r'
    · subst hc
      cases m' with
      | nil =>
        rw [show ((['\r'] ++ ['\n'] : List Char)) ++ b = '\r' :: '\n' :: b from rfl]
        rw [univNl_cr_nl b]
        rw [show (['\r'] ++ ['\n'] : List Char) = '\r' :: '\n' :: [] from rfl]
        rw [univNl_cr_nl []]
        rfl
      | cons c2 m'' =>
        by_cases h2 : c2 = '\n'
        · subst h2
          have ih := univNl_append_term m'' b
          rw [show (('\r' :: '\n' :: m'') ++ ['\n']) ++ b =
            '\r' :: '\n' :: ((m'' ++ ['\n']) ++ b) from by simp]
          rw [univNl_cr_nl, ih]
          rw [show ('\r' :: '\n' :: m'') ++ ['\n'] =
            '\r' :: '\n' :: (m'' ++ ['\n']) from by simp]
          rw [univNl_cr_nl]
          rfl
        · have ih := univNl_append_term (c2 :: m'') b
          rw [show (('\r' :: c2 :: m'') ++ ['\n']) ++ b =
            '\r' :: c2 :: ((m'' ++ ['\n']) ++ b) from by simp]
          rw [univNl_cr_other h2]
          rw [show c2 :: ((m'' ++ ['\n']) ++ b) = ((c2 :: m'') ++ ['\n']) ++ b from by simp]
          rw [ih]
          rw [show ('\r' :: c2 :: m'') ++ ['\n'] = '\r' :: c2 :: (m'' ++ ['\n']) from by simp]
          rw [univNl_cr_other h2]
          rw [show c2 :: (m'' ++ ['\n']) = (c2 :: m'') ++ ['\n'] from by simp]
          rfl
    · have ih := univNl_append_term m' b
      rw [show ((c :: m') ++ ['\n']) ++ b = c :: ((m' ++ ['\n']) ++ b) from by simp]
      rw [univNl_cons_other hc, ih]
      rw [show (c :: m') ++ ['\n'] = c :: (m' ++ ['\n']) from by simp]
      rw [univNl_cons_other hc]
      rfl

theorem univNl_term_wf : ∀ (m : List Char), ∃ m2, univNl (m ++ ['\n']) = m2 ++ ['\n']
  | [] => ⟨[], by rw [List.nil_append]; exact rfl⟩
  | c :: m' => by
    by_cases hc : c = '\r'
    · subst hc
      cases m' with
      | nil =>
        refine ⟨[], ?_⟩
        rw [show (['\r'] ++ ['\n'] : List Char) = '\r' :: '\n' :: [] from rfl]
        rw [univNl_cr_nl []]
        rfl
      | cons c2 m'' =>
        by_cases h2 : c2 = '\n'
        · subst h2
          obtain ⟨m2, hm2⟩ := univNl_term_wf m''
          refine ⟨'\n' :: m2, ?_⟩
          rw [show ('\r' :: '\n' :: m'') ++ ['\n'] =
            '\r' :: '\n' :: (m'' ++ ['\n']) from by simp]
          rw [univNl_cr_nl, hm2]
          rfl
        · obtain ⟨m2, hm2⟩ := univNl_term_wf (c2 :: m'')
          refine ⟨'\n' :: m2, ?_⟩
          rw [show ('\r' :: c2 :: m'') ++ ['\n'] = '\r' :: c2 :: (m'' ++ ['\n']) from by simp]
          rw [univNl_cr_other h2]
          rw [show c2 :: (m'' ++ ['\n']) = (c2 :: m'') ++ ['\n'] from by simp]
          rw [hm2]
          rfl
    · obtain ⟨m2, hm2⟩ := univNl_term_wf m'
      refine ⟨c :: m2, ?_⟩
      rw [show (c :: m') ++ ['\n'] = c :: (m' ++ ['\n']) from by simp]
      rw [univNl_cons_other hc, hm2]
      rfl

theorem logWf_univNl {c : String} (hw : logWf c) :
    univNl c.data = [] ∨ ∃ m2, univNl c.data = m2 ++ ['\n'] := by
  cases hw with
  | inl he => rw [he]; left; rfl
  | inr hm =>
    obtain ⟨m, hm⟩ := hm
    rw [hm]
    exact Or.inr (univNl_term_wf m)

theorem univNl_data_append {c : String} (hw : logWf c) (b : List Char) :
    univNl (c.data ++ b) = univNl c.data ++ univNl b := by
  cases hw with
  | inl he =>
    rw [he, List.nil_append, show univNl ([] : List Char) = [] from rfl,
      List.nil_append]
  | inr hm =>
    obtain ⟨m, hm⟩ := hm
    rw [hm]
    exact univNl_append_term m b

theorem mem_processedOfL {s : String} {dat : List Char} :
    s ∈ processedOfL dat ↔ (∃ l ∈ splitNl dat, s = String.mk (trimChars l)) ∧ s ≠ "" := by
  unfold processedOfL
  rw [List.mem_filter, List.mem_map]
  constructor
  · rintro ⟨⟨l, hl, he⟩, hf⟩
    refine ⟨⟨l, hl, he.symm⟩, ?hne⟩
    simpa using hf
  · rintro ⟨⟨l, hl, he⟩, hne⟩
    exact ⟨⟨l, hl, he.symm⟩, by simpa using hne⟩

theorem processedOf_mem_trim_fixed {s c : String} (h : s ∈ processedOf c) :
    trimChars s.data = s.data ∧ s.data ≠ [] := by
  obtain ⟨⟨l, _, he⟩, hne⟩ := mem_processedOfL.mp h
  constructor
  · rw [he]
    show trimChars (trimChars l) = trimChars l
    exact trimChars_idem l
  · intro hd
    apply hne
    cases s with
    | mk d => rw [string_mk_eq_empty]; exact hd

theorem chunk_cases_of_term {dat : List Char}
    (hw : dat = [] ∨ ∃ m, dat = m ++ ['\n']) {l : List Char}
    (hl : l ∈ splitNl dat) : l ∈ (splitNl dat).dropLast ∨ l = [] := by
  cases hw with
  | inl he =>
    rw [he] at hl
    right
    simpa [splitNl] using hl
  | inr hm =>
    obtain ⟨m, hm⟩ := hm
    have hs : splitNl dat = (splitNl dat).dropLast ++ [[]] := by
      have := splitNl_append_term m []
      rw [List.append_nil] at this
      rw [hm, this]
      simp [splitNl]
    rw [hs] at hl
    rcases List.mem_append.mp hl with h | h
    · left
      exact h
    · right
      simpa using h

theorem splitNl_mem_append {dat : List Char}
    (hw : dat = [] ∨ ∃ m, dat = m ++ ['\n']) (t : List Char) {l : List Char}
    (hl : l ∈ (splitNl dat).dropLast) : l ∈ splitNl (dat ++ t) := by
  cases hw with
  | inl he => rw [he] at hl; simp [splitNl] at hl
  | inr hm =>
    obtain ⟨m, hm⟩ := hm
    rw [hm, splitNl_append_term m t]
    rw [hm] at hl
    exact List.mem_append.mpr (Or.inl hl)

theorem data_append_line (c u : String) :
    (c ++ u ++ "\n").data = c.data ++ (u.data ++ ['\n']) := by
  rw [String.data_append, String.data_append, List.append_assoc]

theorem univNl_line_fixed {u : String} (hcr : '\r' ∉ u.data) :
    univNl (u.data ++ ['\n']) = u.data ++ ['\n'] := by
  have := univNl_nocr_line u.data [] hcr
  simpa using this

theorem chunk_mem_of_append {c u : String} (hw : logWf c) (hnl : '\n' ∉ u.data)
    (hcr : '\r' ∉ u.data) :
    u.data ∈ splitNl (univNl ((c ++ u ++ "\n").data)) := by
  rw [data_append_line, univNl_data_append hw, univNl_line_fixed hcr]
  have hterm : u.data ++ ['\n'] = u.data ++ '\n' :: ([] : List Char) := rfl
  rcases logWf_univNl hw with he | ⟨m2, hm2⟩
  · rw [he, List.nil_append, hterm, splitNl_line u.data [] hnl]
    simp
  · rw [hm2, splitNl_append_term m2 (u.data ++ ['\n']), hterm,
      splitNl_line u.data [] hnl]
    exact List.mem_append.mpr (Or.inr (by simp))

theorem mem_processedOf_append {c u : String} (hw : logWf c) (hu : urlWf u) :
    u ∈ processedOf (c ++ u ++ "\n") := by
  obtain ⟨hne, hfix, hnl, hcr⟩ := hu
  have hdne : u ≠ "" := by
    intro h
    apply hne
    cases u with
    | mk d => rw [string_mk_eq_empty] at h; exact h
  have hueq : u = String.mk (trimChars u.data) := by
    rw [hfix]
  exact mem_processedOfL.mpr ⟨⟨u.data, chunk_mem_of_append hw hnl hcr, hueq⟩, hdne⟩

theorem mem_processedOf_append_trim {c u : String} (hw : logWf c)
    (hnl : '\n' ∉ u.data) (hcr : '\r' ∉ u.data) (hne : trimChars u.data ≠ []) :
    String.mk (trimChars u.data) ∈ processedOf (c ++ u ++ "\n") := by
  apply mem_processedOfL.mpr
  refine ⟨⟨u.data, chunk_mem_of_append hw hnl hcr, rfl⟩, ?hnemp⟩
  intro h
  rw [string_mk_eq_empty] at h
  exact hne h

theorem processedOf_mono {c : String} (hw : logWf c) {v : String}
    (hv : v ∈ processedOf c) (u : String) : v ∈ processedOf (c ++ u ++ "\n") := by
  obtain ⟨⟨l, hl, he⟩, hvne⟩ := mem_processedOfL.mp hv
  rcases chunk_cases_of_term (logWf_univNl hw) hl with hdrop | hnil
  · apply mem_processedOfL.mpr
    refine ⟨⟨l, ?hin, he⟩, hvne⟩
    rw [data_append_line, univNl_data_append hw]
    exact splitNl_mem_append (logWf_univNl hw) (univNl (u.data ++ ['\n'])) hdrop
  · exfalso
    apply hvne
    rw [he, hnil]
    rfl

theorem not_mem_processedOf_of_trim_ne {u c : String}
    (h : trimChars u.data ≠ u.data) : u ∉ processedOf c :=
  fun hm => h (processedOf_mem_trim_fixed hm).1

theorem not_mem_processedOf_of_trim_empty {u c : String}
    (h : trimChars u.data = []) : u ∉ processedOf c := by
  intro hm
  obtain ⟨hfix, hne⟩ := processedOf_mem_trim_fixed hm
  rw [hfix] at h
  exact hne h

/-- C6: Store round-trip.  For every URL u (non-empty, whitespace-free,
newline-free, as every URL written by this program is) and every
well-formed log content, after save_processed_url appends u as one line,
a fresh load_processed_urls of the resulting content reports u as a
member; and the append preserves every previously reported member. -/
theorem store_round_trip (c u : String) (hw : logWf c) (hu : urlWf u) :
    u ∈ load_processed_urls (ReadResult.ok (save_processed_url c u WriteOutcome.ok)) ∧
    ∀ v, v ∈ load_processed_urls (ReadResult.ok c) →
      v ∈ load_processed_urls (ReadResult.ok (save_processed_url c u WriteOutcome.ok)) := by
  constructor
  · exact mem_processedOf_append hw hu
  · intro v hv
    exact processedOf_mono hw hv u

/-- Witness for C6 at a concrete URL and the empty log. -/
theorem store_round_trip_witness :
    logWf "" ∧ urlWf "https://www.youtube.com/watch?v=abc" ∧
    "https://www.youtube.com/watch?v=abc" ∈ load_processed_urls (ReadResult.ok
      (save_processed_url "" "https://www.youtube.com/watch?v=abc" WriteOutcome.ok)) := by
  have hw : logWf "" := Or.inl rfl
  have hu : urlWf "https://www.youtube.com/watch?v=abc" :=
    ⟨by decide, by decide, by decide, by decide⟩
  exact ⟨hw, hu, (store_round_trip "" "https://www.youtube.com/watch?v=abc" hw hu).1⟩

/-- C7: Store fail-open semantics.  load_processed_urls returns the empty
set both when the log file does not exist and on any other read error;
save_processed_url swallows write errors, leaving the log unchanged and
returning normally so the caller continues. -/
theorem store_fail_open :
    load_processed_urls ReadResult.notFound = [] ∧
    load_processed_urls ReadResult.ioError = [] ∧
    ∀ c u : String, save_processed_url c u WriteOutcome.ioError = c :=
  ⟨rfl, rfl, fun _ _ => rfl⟩

/-- C10 counterexample: for u with leading and trailing whitespace and an
interior line terminator (a newline, or a carriage return translated by
the universal-newline read), u.strip() does not become a member after
the append (the saved text reads back as two lines), refuting the claim
that for every u with surrounding whitespace, u.strip() becomes a
member. -/
theorem store_normalization_cx :
    (trimChars (" a\nb " : String).data = ("a\nb" : String).data ∧
      ¬ ("a\nb" ∈ load_processed_urls
        (ReadResult.ok (save_processed_url "" " a\nb " WriteOutcome.ok)))) ∧
    (trimChars (" a\rb " : String).data = ("a\rb" : String).data ∧
      ¬ ("a\rb" ∈ load_processed_urls
        (ReadResult.ok (save_processed_url "" " a\rb " WriteOutcome.ok)))) := by
  refine ⟨⟨?h1, ?h2⟩, ?h3, ?h4⟩
  case h1 => decide
  case h2 => decide
  case h3 => decide
  case h4 => decide

/-- C10 (amended): membership is decided on universal-newline-translated,
stripped lines.  A string whose Python strip is empty never becomes a
member; a string that differs from its own strip never becomes a member;
and for a string free of both line terminators (newline and carriage
return) with non-empty strip, the strip does become a member after the
append. -/
theorem store_normalization :
    (∀ c u : String, trimChars u.data = [] →
        u ∉ load_processed_urls (ReadResult.ok (save_processed_url c u WriteOutcome.ok))) ∧
    (∀ c u : String, trimChars u.data ≠ u.data →
        u ∉ load_processed_urls (ReadResult.ok (save_processed_url c u WriteOutcome.ok))) ∧
    (∀ c u : String, logWf c → '\n' ∉ u.data → '\r' ∉ u.data →
        trimChars u.data ≠ [] →
        String.mk (trimChars u.data) ∈
          load_processed_urls (ReadResult.ok (save_processed_url c u WriteOutcome.ok))) :=
  ⟨fun _ _ h => not_mem_processedOf_of_trim_empty h,
   fun _ _ h => not_mem_processedOf_of_trim_ne h,
   fun _ _ hw hnl hcr hne => mem_processedOf_append_trim hw hnl hcr hne⟩

/-- Witness for C10 (amended) at concrete strings. -/
theorem store_normalization_witness :
    (trimChars ("  " : String).data = [] ∧
      "  " ∉ load_processed_urls (ReadResult.ok (save_processed_url "" "  " WriteOutcome.ok))) ∧
    (trimChars (" x " : String).data ≠ (" x " : String).data ∧
      " x " ∉ load_processed_urls
        (ReadResult.ok (save_processed_url "" " x " WriteOutcome.ok))) ∧
    (logWf "" ∧ '\n' ∉ (" x " : String).data ∧ '\r' ∉ (" x " : String).data ∧
      trimChars (" x " : String).data ≠ [] ∧
      String.mk (trimChars (" x " : String).data) ∈ load_processed_urls
        (ReadResult.ok (save_processed_url "" " x " WriteOutcome.ok))) :=
  ⟨⟨by decide, store_normalization.1 "" "  " (by decide)⟩,
   ⟨by decide, store_normalization.2.1 "" " x " (by decide)⟩,
   ⟨Or.inl rfl, by decide, by decide, by decide,
    store_normalization.2.2 "" " x " (Or.inl rfl) (by decide) (by decide) (by decide)⟩⟩

/-! ## The retry executor

From src/app_old_streams.py (download_video, lines 223-242, and
upload_video, lines 263-319):

    for attempt in range(MAX_RETRIES):
        try:
            ... the operation ...
            return True / return response
        except ...:
            if attempt < MAX_RETRIES - 1:
                logger.warning(...)
                time.sleep(RETRY_DELAY)
                continue
            logger.error(...)
            return False / None

The operation outcome on each attempt is modelled as a Bool-valued
function of the attempt index; the loop result is (success flag, number
of attempts actually made, total sleep delay observed). -/

/-- MAX_RETRIES constant (src/app_old_streams.py line 31). -/
def MAX_RETRIES : Nat := 3

/-- RETRY_DELAY constant, seconds (src/app_old_streams.py line 32). -/
def RETRY_DELAY : Nat := 10

/-- The retry loop shared by download_video and upload_video in
src/app_old_streams.py.  First argument is the number of remaining
attempts; the loop sleeps for the given delay after every failed
non-final attempt and gives up after the final one. -/
def retryAux (op : Nat → Bool) (delay : Nat) : Nat → Nat → Nat → Bool × Nat × Nat
  | 0, attempt, acc => (false, attempt, acc)
  | 1, attempt, acc =>
    if op attempt then (true, attempt + 1, acc) else (false, attempt + 1, acc)
  | n + 2, attempt, acc =>
    if op attempt then (true, attempt + 1, acc)
    else retryAux op delay (n + 1) (attempt + 1) (acc + delay)

/-- download_video retry behaviour (src/app_old_streams.py lines 231-242):
result flag, attempts made, total delay slept. -/
def download_video_run (op : Nat → Bool) : Bool × Nat × Nat :=
  retryAux op RETRY_DELAY MAX_RETRIES 0 0

/-- upload_video retry behaviour (src/app_old_streams.py lines 265-319):
a missing local file fails fast with no attempt at all; otherwise the
same retry loop runs. -/
def upload_video_run (fileThere : Bool) (op : Nat → Bool) : Bool × Nat × Nat :=
  if fileThere then retryAux op RETRY_DELAY MAX_RETRIES 0 0 else (false, 0, 0)

theorem retryAux_all_fail (op : Nat → Bool) (delay : Nat) :
    ∀ (n attempt acc : Nat), (∀ k, op k = false) →
      retryAux op delay (n + 1) attempt acc = (false, attempt + (n + 1), acc + n * delay)
  | 0, attempt, acc, h => by simp [retryAux, h attempt]
  | n + 1, attempt, acc, h => by
    rw [show n + 1 + 1 = n + 2 from rfl]
    rw [show retryAux op delay (n + 2) attempt acc =
      (if op attempt then (true, attempt + 1, acc)
       else retryAux op delay (n + 1) (attempt + 1) (acc + delay)) from rfl]
    rw [h attempt]
    rw [if_neg (by decide : ¬ (false = true))]
    rw [retryAux_all_fail op delay n (attempt + 1) (acc + delay) h]
    simp only [Prod.mk.injEq]
    exact ⟨trivial, by ring, by ring⟩

theorem retryAux_first_success (op : Nat → Bool) (delay : Nat) :
    ∀ (j n attempt acc : Nat), j ≤ n → (∀ k, k < j → op (attempt + k) = false) →
      op (attempt + j) = true →
      retryAux op delay (n + 1) attempt acc = (true, attempt + j + 1, acc + j * delay)
  | 0, n, attempt, acc, _, _, hs => by
    cases n with
    | zero => simp [retryAux] at hs ⊢; simp [hs]
    | succ n' =>
      rw [show n' + 1 + 1 = n' + 2 from rfl]
      rw [show retryAux op delay (n' + 2) attempt acc =
        (if op attempt then (true, attempt + 1, acc)
         else retryAux op delay (n' + 1) (attempt + 1) (acc + delay)) from rfl]
      simp at hs
      simp [hs]
  | j + 1, n, attempt, acc, hle, hf, hs => by
    cases n with
    | zero => omega
    | succ n' =>
      rw [show n' + 1 + 1 = n' + 2 from rfl]
      rw [show retryAux op delay (n' + 2) attempt acc =
        (if op attempt then (true, attempt + 1, acc)
         else retryAux op delay (n' + 1) (attempt + 1) (acc + delay)) from rfl]
      have h0 : op attempt = false := by
        have := hf 0 (by omega)
        simpa using this
      rw [h0]
      rw [if_neg (by decide : ¬ (false = true))]
      have hf' : ∀ k, k < j → op (attempt + 1 + k) = false := by
        intro k hk
        have := hf (k + 1) (by omega)
        rw [show attempt + 1 + k = attempt + (k + 1) from by ring]
        exact this
      have hs' : op (attempt + 1 + j) = true := by
        rw [show attempt + 1 + j = attempt + (j + 1) from by ring]
        exact hs
      rw [retryAux_first_success op delay j n' (attempt + 1) (acc + delay) (by omega) hf' hs']
      simp only [Prod.mk.injEq]
      exact ⟨trivial, by ring, by ring⟩

/-- C4: Retry bound.  An operation failing on every attempt is invoked
exactly MAX_RETRIES times before download_video or upload_video reports
permanent failure, with a RETRY_DELAY sleep after each failed non-final
attempt, hence (MAX_RETRIES - 1) * RETRY_DELAY cumulative delay; and the
first successful attempt (index j, all earlier attempts failing) stops
the loop immediately after attempt j + 1 with j * RETRY_DELAY delay. -/
theorem retry_bound :
    (∀ op : Nat → Bool, (∀ k, op k = false) →
        download_video_run op = (false, MAX_RETRIES, (MAX_RETRIES - 1) * RETRY_DELAY) ∧
        upload_video_run true op = (false, MAX_RETRIES, (MAX_RETRIES - 1) * RETRY_DELAY)) ∧
    (∀ (op : Nat → Bool) (j : Nat), j < MAX_RETRIES → (∀ k, k < j → op k = false) →
        op j = true →
        download_video_run op = (true, j + 1, j * RETRY_DELAY) ∧
        upload_video_run true op = (true, j + 1, j * RETRY_DELAY)) := by
  constructor
  · intro op h
    have := retryAux_all_fail op RETRY_DELAY 2 0 0 h
    constructor
    · rw [download_video_run, show MAX_RETRIES = 2 + 1 from rfl, this]
      simp
    · rw [upload_video_run, if_pos rfl, show MAX_RETRIES = 2 + 1 from rfl, this]
      simp
  · intro op j hj hf hs
    have hf' : ∀ k, k < j → op (0 + k) = false := by
      intro k hk
      rw [Nat.zero_add]
      exact hf k hk
    have hs' : op (0 + j) = true := by rw [Nat.zero_add]; exact hs
    have := retryAux_first_success op RETRY_DELAY j 2 0 0 (by
      rw [show MAX_RETRIES = 2 + 1 from rfl] at hj
      omega) hf' hs'
    rw [Nat.zero_add] at this
    constructor
    · rw [download_video_run, show MAX_RETRIES = 2 + 1 from rfl, this]
      simp
    · rw [upload_video_run, if_pos rfl, show MAX_RETRIES = 2 + 1 from rfl, this]
      simp

/-- Witness for C4: the always-failing operation makes exactly 3 attempts
with 20 seconds of delay; an operation succeeding on its second attempt
stops after 2 attempts with 10 seconds of delay. -/
theorem retry_bound_witness :
    download_video_run (fun _ => false) = (false, 3, 20) ∧
    upload_video_run true (fun _ => false) = (false, 3, 20) ∧
    download_video_run (fun k => k == 1) = (true, 2, 10) ∧
    upload_video_run true (fun k => k == 1) = (true, 2, 10) := by
  have h1 := retry_bound.1 (fun _ => false) (fun _ => rfl)
  have h2 := retry_bound.2 (fun k => k == 1) 1 (by decide)
    (fun k hk => by interval_cases k; decide) (by decide)
  exact ⟨h1.1, h1.2, h2.1, h2.2⟩

/-! ## Candidate discovery

From get_latest_completed_livestream in src/app.py (lines 92-207).  The
remote service is modelled by a YT record: the channels call either fails
or yields an optional uploads-playlist handle; the playlistItems calls
yield a list of pages (a page may fail, and carries its items; the token
chain is the list order); the videos detail call for a batch of ids
either fails or resolves each id through a lookup function.  Exceptions
are modelled with Except Unit; the enclosing try of the Python function
catches them and returns None. -/

/-- liveStreamingDetails of a video: optional actual start and end
markers. -/
structure LSD where
  actualStartTime : Option String
  actualEndTime : Option String
deriving DecidableEq

/-- Detail record returned by the videos().list call for one id. -/
structure VideoDetail where
  title : String
  lsd : Option LSD
deriving DecidableEq

/-- One playlistItems entry (snippet with resourceId.videoId). -/
structure PlaylistItem where
  videoId : String
  title : String
  publishedAt : String
deriving DecidableEq

/-- The candidate dictionary built at src/app.py lines 181-187. -/
structure Candidate where
  id : String
  url : String
  title : String
  startTime : String
  endTime : String
deriving DecidableEq

/-- One page of the uploads playlist: whether the playlistItems call for
it raises, and the items it returns. -/
structure PageSpec where
  fail : Bool
  items : List PlaylistItem
deriving DecidableEq

/-- Model of the remote YouTube service for one discovery pass. -/
structure YT where
  channelFail : Bool
  uploads : Option String
  pages : List PageSpec
  batchFail : List String → Bool
  details : String → Option VideoDetail

/-- URL construction (src/app.py line 136). -/
def mkUrl (videoId : String) : String := "https://www.youtube.com/watch?v=" ++ videoId

/-- The floor datetime(2025, 4, 23).isoformat() + Z (src/app.py
line 117). -/
def min_start_date : String := "2025-04-23T00:00:00Z"

/-- Scan budget (src/app.py line 112). -/
def max_videos_to_check : Nat := 100

/-- The videos().list response entry for a requested id, paired with the
id (the code looks the id up in video_info, which stores data under the
same construction). -/
def resolve (yt : YT) (i : String) : Option (String × VideoDetail) :=
  (yt.details i).map (fun d => (i, d))

/-- Qualification and candidate construction for one detail record
(src/app.py lines 167-187): present liveStreamingDetails with both
actualStartTime and actualEndTime, and startTime not below the floor. -/
def toCand (floor : String) (p : String × VideoDetail) : Option Candidate :=
  match p.2.lsd with
  | none => none
  | some d =>
    match d.actualStartTime with
    | none => none
    | some s =>
      match d.actualEndTime with
      | none => none
      | some e =>
        if strLtB s floor then none
        else some ⟨p.1, mkUrl p.1, p.2.title, s, e⟩

/-- The running-best update (src/app.py lines 179-187): replace the best
candidate exactly when the new start time is strictly greater. -/
def pick (best : Option Candidate) (c : Candidate) : Option Candidate :=
  match best with
  | none => some c
  | some b => if strLtB b.startTime c.startTime then some c else some b

/-- Per-video step of the inner loop at src/app.py lines 167-188. -/
def updateBest (floor : String) (best : Option Candidate) (p : String × VideoDetail) :
    Option Candidate :=
  match toCand floor p with
  | none => best
  | some c => pick best c

/-- Ids kept after the processed-set filter on one page
(src/app.py lines 134-147): items whose constructed URL is already in
the processed set are skipped before any detail fetching. -/
def newIds (processed : List String) (items : List PlaylistItem) : List String :=
  (items.filter (fun it => decide (mkUrl it.videoId ∉ processed))).map
    (fun it => it.videoId)

/-- Batches of at most 50 ids, as range(0, len(video_ids), 50) slices at
src/app.py line 156; fuel-based so that it reduces in the kernel. -/
def chunk50 : Nat → List String → List (List String)
  | _, [] => []
  | 0, l => [l]
  | fuel + 1, x :: xs => ((x :: xs).take 50) :: chunk50 fuel ((x :: xs).drop 50)

/-- The batch slicing of a full id list. -/
def chunks (l : List String) : List (List String) := chunk50 l.length l

/-- The batched detail loop at src/app.py lines 156-188: one videos()
call per batch (its failure raises and aborts), then the per-video
qualification and running-best update. -/
def goChunks (yt : YT) (floor : String) :
    List (List String) → Option Candidate → Except Unit (Option Candidate)
  | [], best => Except.ok best
  | ch :: rest, best =>
    if yt.batchFail ch then Except.error ()
    else goChunks yt floor rest ((ch.filterMap (resolve yt)).foldl (updateBest floor) best)

/-- The page loop at src/app.py lines 119-192: stop when the budget is
reached, a page fetch failure raises, an empty page breaks, a page with
no surviving ids advances the token, and otherwise the batched detail
loop runs before moving to the next page. -/
def scanPages (yt : YT) (processed : List String) :
    List PageSpec → Nat → Option Candidate → Except Unit (Option Candidate)
  | [], _, best => Except.ok best
  | p :: rest, checked, best =>
    if max_videos_to_check ≤ checked then Except.ok best
    else if p.fail then Except.error ()
    else if p.items = [] then Except.ok best
    else
      let ids := newIds processed p.items
      if ids = [] then scanPages yt processed rest checked best
      else
        match goChunks yt min_start_date (chunks ids) best with
        | Except.error e => Except.error e
        | Except.ok best2 => scanPages yt processed rest (checked + ids.length) best2

/-- The body of get_latest_completed_livestream before its enclosing
try: channels call, uploads handle check, then the page scan. -/
def runDiscovery (yt : YT) (processed : List String) : Except Unit (Option Candidate) :=
  if yt.channelFail then Except.error ()
  else
    match yt.uploads with
    | none => Except.ok none
    | some _ => scanPages yt processed yt.pages 0 none

/-- get_latest_completed_livestream (src/app.py lines 92-207): the
enclosing try returns None on any raised error. -/
def get_latest_completed_livestream (yt : YT) (processed : List String) :
    Option Candidate :=
  match runDiscovery yt processed with
  | Except.ok r => r
  | Except.error _ => none

/-- The stream of id-detail pairs the scan actually visits, page by page,
in visit order (meaningful for failure-free services). -/
def encPages (yt : YT) (processed : List String) :
    List PageSpec → Nat → List (String × VideoDetail)
  | [], _ => []
  | p :: rest, checked =>
    if max_videos_to_check ≤ checked then []
    else if p.items = [] then []
    else
      let ids := newIds processed p.items
      if ids = [] then encPages yt processed rest checked
      else ids.filterMap (resolve yt) ++ encPages yt processed rest (checked + ids.length)

/-- All id-detail pairs encountered by a failure-free discovery pass. -/
def encountered (yt : YT) (processed : List String) : List (String × VideoDetail) :=
  match yt.uploads with
  | none => []
  | some _ => encPages yt processed yt.pages 0

/-- The qualifying candidates found across all pages scanned, in
first-seen order. -/
def qualifying (yt : YT) (processed : List String) : List Candidate :=
  (encountered yt processed).filterMap (toCand min_start_date)

/-- No remote call of the modelled service fails. -/
def failureFree (yt : YT) : Prop :=
  yt.channelFail = false ∧ (∀ p ∈ yt.pages, p.fail = false) ∧
    ∀ ids, yt.batchFail ids = false

theorem chunk50_flatten : ∀ (fuel : Nat) (l : List String), l.length ≤ fuel →
    (chunk50 fuel l).flatten = l
  | _, [], _ => by simp [chunk50]
  | 0, x :: xs, h => by simp at h
  | fuel + 1, x :: xs, h => by
    show ((x :: xs).take 50 :: chunk50 fuel ((x :: xs).drop 50)).flatten = x :: xs
    rw [List.flatten_cons]
    rw [chunk50_flatten fuel ((x :: xs).drop 50) (by
      simp only [List.length_drop, List.length_cons] at h ⊢
      omega)]
    exact List.take_append_drop 50 (x :: xs)

theorem chunks_flatten (l : List String) : (chunks l).flatten = l :=
  chunk50_flatten l.length l (Nat.le_refl _)

theorem goChunks_ff (yt : YT) (floor : String) (hbf : ∀ ids, yt.batchFail ids = false) :
    ∀ (cs : List (List String)) (best : Option Candidate),
      goChunks yt floor cs best =
        Except.ok (List.foldl (updateBest floor) best (cs.flatten.filterMap (resolve yt)))
  | [], best => by simp [goChunks]
  | ch :: rest, best => by
    rw [show goChunks yt floor (ch :: rest) best =
      (if yt.batchFail ch then Except.error ()
       else goChunks yt floor rest
         ((ch.filterMap (resolve yt)).foldl (updateBest floor) best)) from rfl]
    rw [hbf ch]
    rw [if_neg (by decide : ¬ (false = true))]
    rw [goChunks_ff yt floor hbf rest]
    rw [List.flatten_cons, List.filterMap_append, List.foldl_append]

theorem scanPages_ff (yt : YT) (processed : List String)
    (hbf : ∀ ids, yt.batchFail ids = false) :
    ∀ (ps : List PageSpec), (∀ p ∈ ps, p.fail = false) → ∀ (checked : Nat)
      (best : Option Candidate),
      scanPages yt processed ps checked best =
        Except.ok (List.foldl (updateBest min_start_date) best
          (encPages yt processed ps checked))
  | [], _, checked, best => by simp [scanPages, encPages]
  | p :: rest, hpf, checked, best => by
    have hp : p.fail = false := hpf p (by simp)
    have hrest : ∀ q ∈ rest, q.fail = false := fun q hq => hpf q (by simp [hq])
    by_cases hb : max_videos_to_check ≤ checked
    · simp [scanPages, encPages, hb]
    · by_cases hi : p.items = []
      · simp [scanPages, encPages, hb, hi, hp]
      · by_cases hn : newIds processed p.items = []
        · simp only [scanPages, encPages, if_neg hb, hp, if_neg (by decide : ¬ (false = true)),
            if_neg hi, hn, if_pos rfl]
          exact scanPages_ff yt processed hbf rest hrest checked best
        · simp only [scanPages, encPages, if_neg hb, hp, if_neg (by decide : ¬ (false = true)),
            if_neg hi, if_neg hn]
          rw [goChunks_ff yt min_start_date hbf (chunks (newIds processed p.items)) best]
          rw [chunks_flatten]
          rw [List.foldl_append]
          exact scanPages_ff yt processed hbf rest hrest
            (checked + (newIds processed p.items).length)
            (List.foldl (updateBest min_start_date) best
              (List.filterMap (resolve yt) (newIds processed p.items)))

theorem get_latest_ff (yt : YT) (processed : List String) (hff : failureFree yt) :
    get_latest_completed_livestream yt processed =
      List.foldl (updateBest min_start_date) none (encountered yt processed) := by
  obtain ⟨hc, hpf, hbf⟩ := hff
  unfold get_latest_completed_livestream runDiscovery encountered
  rw [hc]
  rw [if_neg (by decide : ¬ (false = true))]
  cases yt.uploads with
  | none => simp
  | some u =>
    rw [scanPages_ff yt processed hbf yt.pages hpf 0 none]

theorem foldl_updateBest_eq (floor : String) :
    ∀ (l : List (String × VideoDetail)) (best : Option Candidate),
      List.foldl (updateBest floor) best l =
        List.foldl pick best (l.filterMap (toCand floor))
  | [], _ => rfl
  | p :: l, best => by
    show List.foldl (updateBest floor) (updateBest floor best p) l = _
    cases ht : toCand floor p with
    | none =>
      rw [List.filterMap_cons, ht]
      rw [show updateBest floor best p = best from by rw [updateBest, ht]]
      exact foldl_updateBest_eq floor l best
    | some c =>
      rw [List.filterMap_cons, ht]
      rw [show updateBest floor best p = pick best c from by rw [updateBest, ht]]
      show _ = List.foldl pick (pick best c) (l.filterMap (toCand floor))
      exact foldl_updateBest_eq floor l (pick best c)

theorem foldlPick_spec : ∀ (cs : List Candidate) (b : Candidate),
    ∃ l1 r l2, b :: cs = l1 ++ r :: l2 ∧ List.foldl pick (some b) cs = some r ∧
      (∀ x ∈ l1, strLtB x.startTime r.startTime = true) ∧
      (∀ x ∈ l2, strLtB r.startTime x.startTime = false)
  | [], b => ⟨[], b, [], rfl, rfl, by simp, by simp⟩
  | c :: cs', b => by
    by_cases h : strLtB b.startTime c.startTime = true
    · obtain ⟨l1, r, l2, hdec, hfold, hpre, hsuf⟩ := foldlPick_spec cs' c
      refine ⟨b :: l1, r, l2, ?hdec2, ?hfold2, ?hpre2, hsuf⟩
      · rw [List.cons_append, ← hdec]
      · show List.foldl pick (pick (some b) c) cs' = some r
        rw [show pick (some b) c = some c from by rw [pick]; rw [if_pos h]]
        exact hfold
      · intro x hx
        rcases List.mem_cons.mp hx with hx | hx
        · subst hx
          cases l1 with
          | nil =>
            have : c = r := by
              have := hdec
              simp only [List.nil_append] at this
              exact (List.cons.injEq _ _ _ _ ▸ this).1
            rw [← this]
            exact h
          | cons y ys =>
            have hy : y = c ∧ cs' = ys ++ r :: l2 := by
              have := hdec
              simp only [List.cons_append] at this
              exact ⟨((List.cons.injEq _ _ _ _ ▸ this).1).symm,
                (List.cons.injEq _ _ _ _ ▸ this).2⟩
            have hcr : strLtB c.startTime r.startTime = true := by
              apply hpre
              rw [hy.1]
              simp
            exact strLtB_trans h hcr
        · exact hpre x hx
    · have hfalse : strLtB b.startTime c.startTime = false := by
        cases hv : strLtB b.startTime c.startTime
        · rfl
        · exact absurd hv h
      obtain ⟨l1, r, l2, hdec, hfold, hpre, hsuf⟩ := foldlPick_spec cs' b
      have hstep : List.foldl pick (some b) (c :: cs') =
          List.foldl pick (some b) cs' := by
        show List.foldl pick (pick (some b) c) cs' = _
        rw [show pick (some b) c = some b from by rw [pick]; rw [if_neg (by simp [hfalse])]]
      cases l1 with
      | nil =>
        have hrb : r = b ∧ l2 = cs' := by
          have := hdec
          simp only [List.nil_append] at this
          exact ⟨((List.cons.injEq _ _ _ _ ▸ this).1).symm,
            ((List.cons.injEq _ _ _ _ ▸ this).2).symm⟩
        refine ⟨[], b, c :: cs', rfl, ?hf, by simp, ?hs⟩
        · rw [hstep, hfold, hrb.1]
        · intro x hx
          rcases List.mem_cons.mp hx with hx | hx
          · subst hx
            exact hfalse
          · have := hsuf x (by rw [← hrb.2] at hx; exact hx)
            rw [hrb.1] at this
            exact this
      | cons y ys =>
        have hy : y = b ∧ cs' = ys ++ r :: l2 := by
          have := hdec
          simp only [List.cons_append] at this
          exact ⟨((List.cons.injEq _ _ _ _ ▸ this).1).symm,
            (List.cons.injEq _ _ _ _ ▸ this).2⟩
        have hbr : strLtB b.startTime r.startTime = true := by
          apply hpre
          rw [hy.1]
          simp
        have hd2 : b :: c :: cs' = (b :: c :: ys) ++ r :: l2 := by
          rw [List.cons_append, List.cons_append, ← hy.2]
        have hf2 : List.foldl pick (some b) (c :: cs') = some r := by
          rw [hstep, hfold]
        have hp2 : ∀ x ∈ b :: c :: ys, strLtB x.startTime r.startTime = true := by
          intro x hx
          rcases List.mem_cons.mp hx with hx | hx
          · subst hx
            exact hbr
          · rcases List.mem_cons.mp hx with hx | hx
            · subst hx
              exact strLtB_le_lt_trans hfalse hbr
            · apply hpre
              rw [hy.1]
              simp [hx]
        exact ⟨b :: c :: ys, r, l2, hd2, hf2, hp2, hsuf⟩

theorem foldlPick_none_spec (cs : List Candidate) (hne : cs ≠ []) :
    ∃ l1 r l2, cs = l1 ++ r :: l2 ∧ List.foldl pick none cs = some r ∧
      (∀ x ∈ l1, strLtB x.startTime r.startTime = true) ∧
      (∀ x ∈ cs, strLtB r.startTime x.startTime = false) := by
  cases cs with
  | nil => exact absurd rfl hne
  | cons c cs' =>
    obtain ⟨l1, r, l2, hdec, hfold, hpre, hsuf⟩ := foldlPick_spec cs' c
    refine ⟨l1, r, l2, hdec, ?hf, hpre, ?hmax⟩
    · show List.foldl pick (pick none c) cs' = some r
      rw [show pick none c = some c from rfl]
      exact hfold
    · intro x hx
      rw [hdec] at hx
      rcases List.mem_append.mp hx with hx | hx
      · exact strLtB_asymm (hpre x hx)
      · rcases List.mem_cons.mp hx with hx | hx
        · subst hx
          exact strLtB_irrefl _
        · exact hsuf x hx

theorem foldlPick_none_nil : List.foldl pick none ([] : List Candidate) = none := rfl

theorem foldlPick_perm_unique (cs cs' : List Candidate) (hperm : List.Perm cs cs')
    (hdist : cs.Pairwise (fun x y => x.startTime ≠ y.startTime)) :
    List.foldl pick none cs = List.foldl pick none cs' := by
  by_cases hcs : cs = []
  · have h0 : List.Perm ([] : List Candidate) cs' := hcs ▸ hperm
    have hcs' : cs' = [] := List.Perm.eq_nil h0.symm
    rw [hcs, hcs']
  · have hne' : cs' ≠ [] := by
      intro h
      rw [h] at hperm
      exact hcs (List.Perm.eq_nil hperm)
    obtain ⟨l1, r, l2, hdec, hfold, _, hmax⟩ := foldlPick_none_spec cs hcs
    obtain ⟨l1', r', l2', hdec', hfold', _, hmax'⟩ := foldlPick_none_spec cs' hne'
    have hrmem : r ∈ cs := by rw [hdec]; simp
    have hrmem' : r' ∈ cs := (List.Perm.mem_iff hperm).mpr (by rw [hdec']; simp)
    have h1 : strLtB r.startTime r'.startTime = false := hmax r' hrmem'
    have h2 : strLtB r'.startTime r.startTime = false :=
      hmax' r ((List.Perm.mem_iff hperm).mp hrmem)
    have hst : r.startTime = r'.startTime := strLtB_eq_of_not h1 h2
    have hreq : r = r' := by
      by_cases he : r = r'
      · exact he
      · exfalso
        have hsym : Symmetric (fun x y : Candidate => x.startTime ≠ y.startTime) :=
          fun x y hxy => fun hyx => hxy hyx.symm
        exact (List.Pairwise.forall hsym hdist hrmem hrmem' he) hst
    rw [hfold, hfold', hreq]

/-- C2: Candidate selection.  For a failure-free service, Discovery
returns none exactly when no qualifying candidate was encountered;
otherwise it returns the first-seen candidate whose startTime is
lexicographically greatest among all qualifying candidates found across
all pages scanned (no later candidate has a strictly greater startTime,
and every earlier-seen candidate has a strictly smaller one); and two
failure-free passes whose qualifying candidate lists are permutations of
each other with pairwise distinct startTimes select the same result. -/
theorem candidate_selection :
    (∀ (yt : YT) (processed : List String), failureFree yt →
      (qualifying yt processed = [] →
        get_latest_completed_livestream yt processed = none) ∧
      (qualifying yt processed ≠ [] →
        ∃ l1 c l2, qualifying yt processed = l1 ++ c :: l2 ∧
          get_latest_completed_livestream yt processed = some c ∧
          (∀ x ∈ qualifying yt processed, strLtB c.startTime x.startTime = false) ∧
          (∀ x ∈ l1, strLtB x.startTime c.startTime = true))) ∧
    (∀ (yt yt' : YT) (processed processed' : List String),
      failureFree yt → failureFree yt' →
      List.Perm (qualifying yt processed) (qualifying yt' processed') →
      (qualifying yt processed).Pairwise (fun x y => x.startTime ≠ y.startTime) →
      get_latest_completed_livestream yt processed =
        get_latest_completed_livestream yt' processed') := by
  have key : ∀ (yt : YT) (processed : List String), failureFree yt →
      get_latest_completed_livestream yt processed =
        List.foldl pick none (qualifying yt processed) := by
    intro yt processed hff
    rw [get_latest_ff yt processed hff, foldl_updateBest_eq min_start_date]
    rfl
  constructor
  · intro yt processed hff
    constructor
    · intro hq
      rw [key yt processed hff, hq]
      rfl
    · intro hq
      obtain ⟨l1, r, l2, hdec, hfold, hpre, hmax⟩ := foldlPick_none_spec _ hq
      exact ⟨l1, r, l2, hdec, by rw [key yt processed hff]; exact hfold, hmax, hpre⟩
  · intro yt yt' processed processed' hff hff' hperm hdist
    rw [key yt processed hff, key yt' processed' hff']
    exact foldlPick_perm_unique _ _ hperm hdist

/-- A playlist item used by concrete discovery examples. -/
def itemW (i : String) : PlaylistItem := ⟨i, "t", "2025-05-01T00:00:00Z"⟩

/-- Detail lookup for the concrete discovery examples: three completed
livestreams with starts on 2025-05-01, 2025-05-05 and 2025-05-03. -/
def detailsW : String → Option VideoDetail := fun i =>
  if i = "a" then
    some ⟨"A", some ⟨some "2025-05-01T00:00:00Z", some "2025-05-02T00:00:00Z"⟩⟩
  else if i = "b" then
    some ⟨"B", some ⟨some "2025-05-05T00:00:00Z", some "2025-05-06T00:00:00Z"⟩⟩
  else if i = "c" then
    some ⟨"C", some ⟨some "2025-05-03T00:00:00Z", some "2025-05-04T00:00:00Z"⟩⟩
  else none

/-- A failure-free service listing a, b, c in that order. -/
def ytW1 : YT :=
  ⟨false, some "uploads", [⟨false, [itemW "a", itemW "b", itemW "c"]⟩],
    fun _ => false, detailsW⟩

/-- The same service with the items listed in a different order. -/
def ytW2 : YT :=
  ⟨false, some "uploads", [⟨false, [itemW "c", itemW "a", itemW "b"]⟩],
    fun _ => false, detailsW⟩

/-- Witness for C2: on the concrete examples the hypotheses hold, the two
encounter orders select the same candidate, and the selection spec is
realized. -/
theorem candidate_selection_witness :
    failureFree ytW1 ∧ failureFree ytW2 ∧
    List.Perm (qualifying ytW1 []) (qualifying ytW2 []) ∧
    (qualifying ytW1 []).Pairwise (fun x y => x.startTime ≠ y.startTime) ∧
    get_latest_completed_livestream ytW1 [] =
      get_latest_completed_livestream ytW2 [] ∧
    qualifying ytW1 [] ≠ [] ∧
    (∃ l1 c l2, qualifying ytW1 [] = l1 ++ c :: l2 ∧
      get_latest_completed_livestream ytW1 [] = some c ∧
      (∀ x ∈ qualifying ytW1 [], strLtB c.startTime x.startTime = false) ∧
      (∀ x ∈ l1, strLtB x.startTime c.startTime = true)) := by
  have hff1 : failureFree ytW1 := ⟨rfl, by decide, fun _ => rfl⟩
  have hff2 : failureFree ytW2 := ⟨rfl, by decide, fun _ => rfl⟩
  have hperm : List.Perm (qualifying ytW1 []) (qualifying ytW2 []) := by decide
  have hdist : (qualifying ytW1 []).Pairwise (fun x y => x.startTime ≠ y.startTime) := by
    decide
  have hne : qualifying ytW1 [] ≠ [] := by decide
  exact ⟨hff1, hff2, hperm, hdist,
    candidate_selection.2 ytW1 ytW2 [] [] hff1 hff2 hperm hdist,
    hne, (candidate_selection.1 ytW1 [] hff1).2 hne⟩

theorem toCand_fields {floor : String} {i : String} {d : VideoDetail} {c : Candidate}
    (h : toCand floor (i, d) = some c) : c.id = i ∧ c.url = mkUrl i := by
  rcases d with ⟨ttl, lsd⟩
  rcases lsd with _ | ⟨s?, e?⟩
  · simp [toCand] at h
  · rcases s? with _ | s
    · simp [toCand] at h
    · rcases e? with _ | e
      · simp [toCand] at h
      · by_cases hf : strLtB s floor = true
        · simp [toCand, hf] at h
        · simp [toCand, hf] at h
          rw [← h]
          exact ⟨rfl, rfl⟩

theorem resolve_fst {yt : YT} {i : String} {p : String × VideoDetail}
    (h : resolve yt i = some p) : p.1 = i := by
  unfold resolve at h
  cases hd : yt.details i with
  | none => rw [hd] at h; simp at h
  | some d =>
    rw [hd] at h
    simp at h
    rw [← h]

theorem newIds_not_processed {processed : List String} {items : List PlaylistItem}
    {i : String} (h : i ∈ newIds processed items) : mkUrl i ∉ processed := by
  unfold newIds at h
  rw [List.mem_map] at h
  obtain ⟨it, hit, he⟩ := h
  rw [List.mem_filter] at hit
  rw [← he]
  exact of_decide_eq_true hit.2

theorem foldl_updateBest_some {floor : String} :
    ∀ (l : List (String × VideoDetail)) (best : Option Candidate) (c : Candidate),
      List.foldl (updateBest floor) best l = some c →
      best = some c ∨ ∃ p ∈ l, toCand floor p = some c
  | [], _, _, h => Or.inl h
  | p :: l, best, c, h => by
    have hrec := foldl_updateBest_some l (updateBest floor best p) c h
    rcases hrec with h1 | ⟨q, hq, ht⟩
    · cases ht2 : toCand floor p with
      | none =>
        rw [updateBest, ht2] at h1
        exact Or.inl h1
      | some c2 =>
        rw [updateBest, ht2] at h1
        cases best with
        | none =>
          simp [pick] at h1
          exact Or.inr ⟨p, by simp, by rw [ht2, h1]⟩
        | some b =>
          by_cases hlt : strLtB b.startTime c2.startTime = true
          · simp [pick, hlt] at h1
            exact Or.inr ⟨p, by simp, by rw [ht2, h1]⟩
          · simp [pick, hlt] at h1
            exact Or.inl (by rw [h1])
    · exact Or.inr ⟨q, List.mem_cons_of_mem p hq, ht⟩

theorem goChunks_ok_some (yt : YT) (floor : String) :
    ∀ (cs : List (List String)) (best : Option Candidate) (c : Candidate),
      goChunks yt floor cs best = Except.ok (some c) →
      best = some c ∨ ∃ ch ∈ cs, ∃ p ∈ ch.filterMap (resolve yt), toCand floor p = some c
  | [], best, c, h => by
    simp [goChunks] at h
    exact Or.inl (by rw [h])
  | ch :: rest, best, c, h => by
    rw [show goChunks yt floor (ch :: rest) best =
      (if yt.batchFail ch then Except.error ()
       else goChunks yt floor rest
         ((ch.filterMap (resolve yt)).foldl (updateBest floor) best)) from rfl] at h
    cases hb : yt.batchFail ch with
    | true => rw [hb] at h; simp at h
    | false =>
      rw [hb] at h
      rw [if_neg (by decide : ¬ (false = true))] at h
      have hrec := goChunks_ok_some yt floor rest _ c h
      rcases hrec with h1 | ⟨ch2, hch2, p, hp, ht⟩
      · have := foldl_updateBest_some (ch.filterMap (resolve yt)) best c h1
        rcases this with h2 | ⟨p, hp, ht⟩
        · exact Or.inl h2
        · exact Or.inr ⟨ch, by simp, p, hp, ht⟩
      · exact Or.inr ⟨ch2, by simp [hch2], p, hp, ht⟩

theorem scanPages_ok_some (yt : YT) (processed : List String) :
    ∀ (ps : List PageSpec) (checked : Nat) (best : Option Candidate) (c : Candidate),
      scanPages yt processed ps checked best = Except.ok (some c) →
      best = some c ∨ ∃ pg ∈ ps,
        ∃ p ∈ (newIds processed pg.items).filterMap (resolve yt),
          toCand min_start_date p = some c
  | [], _, best, c, h => by
    simp [scanPages] at h
    exact Or.inl (by rw [h])
  | pg :: rest, checked, best, c, h => by
    rw [show scanPages yt processed (pg :: rest) checked best =
      (if max_videos_to_check ≤ checked then Except.ok best
       else if pg.fail then Except.error ()
       else if pg.items = [] then Except.ok best
       else
         let ids := newIds processed pg.items
         if ids = [] then scanPages yt processed rest checked best
         else
           match goChunks yt min_start_date (chunks ids) best with
           | Except.error e => Except.error e
           | Except.ok best2 =>
             scanPages yt processed rest (checked + ids.length) best2) from rfl] at h
    by_cases hb : max_videos_to_check ≤ checked
    · rw [if_pos hb] at h
      simp at h
      exact Or.inl (by rw [h])
    · rw [if_neg hb] at h
      by_cases hf : pg.fail = true
      · rw [if_pos hf] at h
        simp at h
      · rw [if_neg hf] at h
        by_cases hi : pg.items = []
        · rw [if_pos hi] at h
          simp at h
          exact Or.inl (by rw [h])
        · rw [if_neg hi] at h
          simp only [] at h
          by_cases hn : newIds processed pg.items = []
          · rw [if_pos hn] at h
            have := scanPages_ok_some yt processed rest checked best c h
            rcases this with h1 | ⟨pg2, hpg2, p, hp, ht⟩
            · exact Or.inl h1
            · exact Or.inr ⟨pg2, by simp [hpg2], p, hp, ht⟩
          · rw [if_neg hn] at h
            cases hgo : goChunks yt min_start_date (chunks (newIds processed pg.items)) best with
            | error e => rw [hgo] at h; simp at h
            | ok best2 =>
              rw [hgo] at h
              simp only [] at h
              have hrec := scanPages_ok_some yt processed rest _ best2 c h
              rcases hrec with h1 | ⟨pg2, hpg2, p, hp, ht⟩
              · rw [h1] at hgo
                have := goChunks_ok_some yt min_start_date _ best c hgo
                rcases this with h2 | ⟨ch, hch, p, hp, ht⟩
                · exact Or.inl h2
                · refine Or.inr ⟨pg, by simp, p, ?hp2, ht⟩
                  obtain ⟨i, hi2, hres⟩ := List.mem_filterMap.mp hp
                  apply List.mem_filterMap.mpr
                  refine ⟨i, ?hi3, hres⟩
                  have : i ∈ (chunks (newIds processed pg.items)).flatten :=
                    List.mem_flatten.mpr ⟨ch, hch, hi2⟩
                  rw [chunks_flatten] at this
                  exact this
              · exact Or.inr ⟨pg2, by simp [hpg2], p, hp, ht⟩

theorem discovery_some_sound (yt : YT) (processed : List String) (c : Candidate)
    (h : get_latest_completed_livestream yt processed = some c) :
    ∃ pg ∈ yt.pages, ∃ p ∈ (newIds processed pg.items).filterMap (resolve yt),
      toCand min_start_date p = some c := by
  unfold get_latest_completed_livestream runDiscovery at h
  cases hc : yt.channelFail with
  | true => rw [hc] at h; simp at h
  | false =>
    rw [hc] at h
    rw [if_neg (by decide : ¬ (false = true))] at h
    cases hu : yt.uploads with
    | none => rw [hu] at h; simp at h
    | some u =>
      rw [hu] at h
      cases hs : scanPages yt processed yt.pages 0 none with
      | error e => rw [hs] at h; simp at h
      | ok r =>
        rw [hs] at h
        simp only [] at h
        rw [h] at hs
        have := scanPages_ok_some yt processed yt.pages 0 none c hs
        rcases this with h1 | h2
        · simp at h1
        · exact h2

/-- C3: Qualification filter.  A detail record is eligible as a candidate
iff it carries liveStreamingDetails with both an actualStartTime and an
actualEndTime and its start time is not earlier than the configured
floor; at the boundary a start time equal to the floor is included, a
strictly earlier one is excluded, a record with a start marker but no
end marker never qualifies, and any candidate Discovery returns arises
from a qualifying record. -/
theorem qualification_filter :
    (∀ (floor i : String) (d : VideoDetail),
        (toCand floor (i, d)).isSome = true ↔
          ∃ l, d.lsd = some l ∧ ∃ s, l.actualStartTime = some s ∧
            (∃ e, l.actualEndTime = some e) ∧ strLtB s floor = false) ∧
    (∀ (floor i ttl s e : String), strLtB s floor = false →
        toCand floor (i, ⟨ttl, some ⟨some s, some e⟩⟩) =
          some ⟨i, mkUrl i, ttl, s, e⟩) ∧
    (∀ (i ttl s e : String),
        toCand s (i, ⟨ttl, some ⟨some s, some e⟩⟩) = some ⟨i, mkUrl i, ttl, s, e⟩) ∧
    (∀ (floor i ttl s e : String), strLtB s floor = true →
        toCand floor (i, ⟨ttl, some ⟨some s, some e⟩⟩) = none) ∧
    (∀ (floor i ttl s : String), toCand floor (i, ⟨ttl, some ⟨some s, none⟩⟩) = none) ∧
    (∀ (yt : YT) (processed : List String) (c : Candidate),
        get_latest_completed_livestream yt processed = some c →
        ∃ p, toCand min_start_date p = some c) := by
  refine ⟨?hiff, ?hge, ?heq, ?hlt, ?hnoend, ?hsound⟩
  case hiff =>
    intro floor i d
    rcases d with ⟨ttl, lsd⟩
    rcases lsd with _ | ⟨s?, e?⟩
    · simp [toCand]
    · rcases s? with _ | s
      · simp [toCand]
      · rcases e? with _ | e
        · simp [toCand]
        · by_cases hf : strLtB s floor = true
          · simp [toCand, hf]
          · have hf' : strLtB s floor = false := by
              cases hv : strLtB s floor
              · rfl
              · exact absurd hv hf
            simp [toCand, hf']
  case hge =>
    intro floor i ttl s e hge
    simp [toCand, hge]
  case heq =>
    intro i ttl s e
    simp [toCand, strLtB_irrefl]
  case hlt =>
    intro floor i ttl s e hlt
    simp [toCand, hlt]
  case hnoend =>
    intro floor i ttl s
    simp [toCand]
  case hsound =>
    intro yt processed c h
    obtain ⟨pg, _, p, _, ht⟩ := discovery_some_sound yt processed c h
    exact ⟨p, ht⟩

/-- Witness for C3: boundary instances evaluated at concrete strings, and
the soundness conjunct applied to a concrete pass. -/
theorem qualification_filter_witness :
    (strLtB "2025-04-18T00:00:00Z" "2025-04-18T00:00:00Z" = false ∧
      toCand "2025-04-18T00:00:00Z"
        ("v1", ⟨"T", some ⟨some "2025-04-18T00:00:00Z", some "2025-04-19T00:00:00Z"⟩⟩) =
        some ⟨"v1", mkUrl "v1", "T", "2025-04-18T00:00:00Z", "2025-04-19T00:00:00Z"⟩) ∧
    (strLtB "2025-04-17T23:59:59Z" "2025-04-18T00:00:00Z" = true ∧
      toCand "2025-04-18T00:00:00Z"
        ("v1", ⟨"T", some ⟨some "2025-04-17T23:59:59Z", some "2025-04-19T00:00:00Z"⟩⟩) =
        none) ∧
    toCand "2025-04-18T00:00:00Z"
      ("v1", ⟨"T", some ⟨some "2025-04-18T00:00:00Z", none⟩⟩) = none := by
  refine ⟨⟨by decide, ?h1⟩, ⟨by decide, ?h2⟩, ?h3⟩
  case h1 =>
    exact qualification_filter.2.2.1 "v1" "T" "2025-04-18T00:00:00Z" "2025-04-19T00:00:00Z"
  case h2 =>
    exact qualification_filter.2.2.2.1 "2025-04-18T00:00:00Z" "v1" "T"
      "2025-04-17T23:59:59Z" "2025-04-19T00:00:00Z" (by decide)
  case h3 =>
    exact qualification_filter.2.2.2.2.1 "2025-04-18T00:00:00Z" "v1" "T"
      "2025-04-18T00:00:00Z"

/-- C8: Discovery dedup idempotence.  An item whose constructed URL is in
the processed-set snapshot is dropped by the page filter before any
detail fetching, and for every service model and snapshot, a URL in the
snapshot is never the URL of the returned candidate. -/
theorem dedup_idempotence :
    (∀ (processed : List String) (items : List PlaylistItem) (i : String),
        i ∈ newIds processed items → mkUrl i ∉ processed) ∧
    (∀ (yt : YT) (processed : List String) (c : Candidate),
        get_latest_completed_livestream yt processed = some c →
        c.url ∉ processed) := by
  refine ⟨fun processed items i h => newIds_not_processed h, ?main⟩
  intro yt processed c h
  obtain ⟨pg, _, p, hp, ht⟩ := discovery_some_sound yt processed c h
  obtain ⟨i, hi, hres⟩ := List.mem_filterMap.mp hp
  have hfst := resolve_fst hres
  rcases p with ⟨pi, pd⟩
  have hurl := (toCand_fields ht).2
  rw [hurl]
  simp only at hfst
  rw [hfst]
  exact newIds_not_processed hi

/-- A service whose listing contains one already-processed item and one
new item. -/
def ytW3 : YT :=
  ⟨false, some "uploads", [⟨false, [itemW "a", itemW "b"]⟩], fun _ => false, detailsW⟩

/-- Witness for C8: with mkUrl a already processed, discovery on ytW3
still returns the other candidate, whose URL is not in the snapshot. -/
theorem dedup_idempotence_witness :
    get_latest_completed_livestream ytW3 [mkUrl "a"] =
      some ⟨"b", mkUrl "b", "B", "2025-05-05T00:00:00Z", "2025-05-06T00:00:00Z"⟩ ∧
    (⟨"b", mkUrl "b", "B", "2025-05-05T00:00:00Z", "2025-05-06T00:00:00Z"⟩ :
      Candidate).url ∉ [mkUrl "a"] := by
  have h : get_latest_completed_livestream ytW3 [mkUrl "a"] =
      some ⟨"b", mkUrl "b", "B", "2025-05-05T00:00:00Z", "2025-05-06T00:00:00Z"⟩ := by
    decide
  exact ⟨h, dedup_idempotence.2 ytW3 [mkUrl "a"] _ h⟩

/-! ## Batch lookup from src/app_old_streams.py

get_livestream_info_for_urls (lines 47-78) extracts video ids from URLs
with url.split on the marker substrings, fetches details in batches of
50, and on an HttpError for one batch logs and continues with the next
batch, appending whatever the other batches yield. -/

/-- Detail record for the old-streams lookup (title, publishedAt,
liveStreamingDetails). -/
structure OldDetail where
  title : String
  publishedAt : String
  lsd : Option LSD
deriving DecidableEq

/-- The livestream dictionary built at src/app_old_streams.py
lines 67-73. -/
structure OldCand where
  id : String
  url : String
  title : String
  publishedAt : String
  endTime : String
deriving DecidableEq

/-- Whether the pattern occurs at the head of the list. -/
def startsWithSub : List Char → List Char → Bool
  | [], _ => true
  | _ :: _, [] => false
  | s :: ss, c :: cs => s == c && startsWithSub ss cs

/-- Scan up to the first occurrence of the separator; yields the piece
before it and, when found, the remainder after it. -/
def takeUntilSub (sep : List Char) : List Char → List Char × Option (List Char)
  | [] => ([], none)
  | c :: rest =>
    if startsWithSub sep (c :: rest) then ([], some ((c :: rest).drop sep.length))
    else
      match takeUntilSub sep rest with
      | (pre1, r) => (c :: pre1, r)

/-- Fuel-bounded repeated split (fuel is the input length, which always
suffices for a non-empty separator). -/
def splitSubF (sep : List Char) : Nat → List Char → List (List Char)
  | 0, l => [l]
  | fuel + 1, l =>
    match takeUntilSub sep l with
    | (pre1, none) => [pre1]
    | (pre1, some rest) => pre1 :: splitSubF sep fuel rest

/-- Python str.split with a substring separator. -/
def splitSub (sep l : List Char) : List (List Char) := splitSubF sep l.length l

/-- Id extraction at src/app_old_streams.py lines 50-54: if the v= marker
occurs, take the text after it up to the first ampersand. -/
def extract_video_id (url : String) : Option String :=
  match splitSub ['v', '='] url.data with
  | _ :: second :: _ => some (String.mk ((splitSub ['&'] second).headD second))
  | _ => none

/-- One successful videos() batch at src/app_old_streams.py lines 65-73:
keep items with liveStreamingDetails carrying an actualEndTime. -/
def collectBatch (details : String → Option OldDetail) (ch : List String) : List OldCand :=
  ch.filterMap (fun i =>
    match details i with
    | none => none
    | some d =>
      match d.lsd with
      | none => none
      | some l =>
        match l.actualEndTime with
        | none => none
        | some e => some ⟨i, mkUrl i, d.title, d.publishedAt, e⟩)

/-- The batch loop at src/app_old_streams.py lines 57-76: an HttpError on
one batch is caught and the loop continues with the next batch. -/
def oldGoBatches (bf : List String → Bool) (details : String → Option OldDetail) :
    List (List String) → List OldCand → List OldCand
  | [], acc => acc
  | ch :: rest, acc =>
    if bf ch then oldGoBatches bf details rest acc
    else oldGoBatches bf details rest (acc ++ collectBatch details ch)

/-- get_livestream_info_for_urls (src/app_old_streams.py lines 47-78). -/
def get_livestream_info_for_urls (bf : List String → Bool)
    (details : String → Option OldDetail) (urls : List String) : List OldCand :=
  oldGoBatches bf details (chunks (urls.filterMap extract_video_id)) []

theorem oldGoBatches_filter (bf : List String → Bool)
    (details : String → Option OldDetail) :
    ∀ (cs : List (List String)) (acc : List OldCand),
      oldGoBatches bf details cs acc =
        (cs.filter (fun ch => !(bf ch))).foldl
          (fun acc2 ch => acc2 ++ collectBatch details ch) acc
  | [], acc => rfl
  | ch :: rest, acc => by
    rw [show oldGoBatches bf details (ch :: rest) acc =
      (if bf ch then oldGoBatches bf details rest acc
       else oldGoBatches bf details rest (acc ++ collectBatch details ch)) from rfl]
    cases hb : bf ch with
    | true =>
      rw [if_pos rfl]
      rw [oldGoBatches_filter bf details rest acc]
      rw [List.filter_cons]
      rw [hb]
      rfl
    | false =>
      rw [if_neg (by decide : ¬ (false = true))]
      rw [oldGoBatches_filter bf details rest (acc ++ collectBatch details ch)]
      rw [List.filter_cons]
      rw [hb]
      rfl

/-- A service whose channels call raises. -/
def ytFailW : YT := ⟨true, some "uploads", [], fun _ => false, fun _ => none⟩

/-- C9 counterexample: in get_livestream_info_for_urls a remote detail
call made during the pass fails (the first 50-id batch), yet the function
returns a non-empty result built from the remaining batch, refuting the
claim that any remote-call failure makes Discovery return no candidate. -/
theorem discovery_atomic_cx :
    ((chunks ((List.replicate 51 (mkUrl "a")).filterMap extract_video_id)).any
      (fun ch => decide (50 ≤ ch.length)) = true) ∧
    get_livestream_info_for_urls (fun ch => decide (50 ≤ ch.length))
      (fun _ => some ⟨"T", "2025-01-01T00:00:00Z",
        some ⟨some "2025-01-01T00:00:00Z", some "2025-01-02T00:00:00Z"⟩⟩)
      (List.replicate 51 (mkUrl "a")) ≠ [] := by
  constructor
  · decide
  · decide

/-- C9 (amended): in get_latest_completed_livestream of src/app.py any
raised remote-call failure aborts the whole pass and the function returns
none, and any returned candidate comes from an error-free run (never a
partial scan); a failing channels call, a failing page fetch that is
reached, and a failing detail batch that is reached each abort the pass;
but in get_livestream_info_for_urls of src/app_old_streams.py a failing
detail batch is skipped and the result is collected from exactly the
non-failing batches. -/
theorem discovery_atomic_failure :
    (∀ (yt : YT) (processed : List String),
        runDiscovery yt processed = Except.error () →
        get_latest_completed_livestream yt processed = none) ∧
    (∀ (yt : YT) (processed : List String) (c : Candidate),
        get_latest_completed_livestream yt processed = some c →
        runDiscovery yt processed = Except.ok (some c)) ∧
    (∀ (yt : YT) (processed : List String), yt.channelFail = true →
        get_latest_completed_livestream yt processed = none) ∧
    (∀ (yt : YT) (processed : List String) (p : PageSpec) (rest : List PageSpec)
        (checked : Nat) (best : Option Candidate), p.fail = true →
        checked < max_videos_to_check →
        scanPages yt processed (p :: rest) checked best = Except.error ()) ∧
    (∀ (yt : YT) (floor : String) (ch : List String) (cs : List (List String))
        (best : Option Candidate), yt.batchFail ch = true →
        goChunks yt floor (ch :: cs) best = Except.error ()) ∧
    (∀ (bf : List String → Bool) (details : String → Option OldDetail)
        (urls : List String),
        get_livestream_info_for_urls bf details urls =
          ((chunks (urls.filterMap extract_video_id)).filter (fun ch => !(bf ch))).foldl
            (fun acc ch => acc ++ collectBatch details ch) []) := by
  refine ⟨?h1, ?h2, ?h3, ?h4, ?h5, ?h6⟩
  case h1 =>
    intro yt processed h
    unfold get_latest_completed_livestream
    rw [h]
  case h2 =>
    intro yt processed c h
    unfold get_latest_completed_livestream at h
    cases hr : runDiscovery yt processed with
    | error e => rw [hr] at h; simp at h
    | ok r =>
      rw [hr] at h
      simp only [] at h
      rw [h]
  case h3 =>
    intro yt processed h
    unfold get_latest_completed_livestream runDiscovery
    rw [h]
    rfl
  case h4 =>
    intro yt processed p rest checked best hf hc
    rw [show scanPages yt processed (p :: rest) checked best =
      (if max_videos_to_check ≤ checked then Except.ok best
       else if p.fail then Except.error ()
       else if p.items = [] then Except.ok best
       else
         let ids := newIds processed p.items
         if ids = [] then scanPages yt processed rest checked best
         else
           match goChunks yt min_start_date (chunks ids) best with
           | Except.error e => Except.error e
           | Except.ok best2 =>
             scanPages yt processed rest (checked + ids.length) best2) from rfl]
    rw [if_neg (by omega : ¬ max_videos_to_check ≤ checked)]
    rw [if_pos hf]
  case h5 =>
    intro yt floor ch cs best hb
    rw [show goChunks yt floor (ch :: cs) best =
      (if yt.batchFail ch then Except.error ()
       else goChunks yt floor cs
         ((ch.filterMap (resolve yt)).foldl (updateBest floor) best)) from rfl]
    rw [if_pos hb]
  case h6 =>
    intro bf details urls
    exact oldGoBatches_filter bf details (chunks (urls.filterMap extract_video_id)) []

/-- Witness for C9 (amended): a failing channels call yields none; a
failing first page aborts the scan with an error. -/
theorem discovery_atomic_failure_witness :
    runDiscovery ytFailW [] = Except.error () ∧
    get_latest_completed_livestream ytFailW [] = none ∧
    (⟨true, [itemW "a"]⟩ : PageSpec).fail = true ∧ (0 : Nat) < max_videos_to_check ∧
    scanPages ytW1 [] [⟨true, [itemW "a"]⟩] 0 none = Except.error () :=
  ⟨rfl, discovery_atomic_failure.1 ytFailW [] rfl, rfl, by decide,
    discovery_atomic_failure.2.2.2.1 ytW1 [] ⟨true, [itemW "a"]⟩ [] 0 none rfl (by decide)⟩

/-! ## Pipeline orchestrators

process_video in src/app.py (lines 723-803) and process_livestream in
src/app_old_streams.py (lines 365-434) are modelled as functions from an
environment of step outcomes to the final log content and a trace of
events, each event paired with the log content at the moment it happens.
The ffmpeg invocation in process_video ignores the outcome of os.system,
so it has no outcome flag there; deletions are recorded as the deletion
attempt the code makes. -/

/-- Pipeline events: source acquisition, the processed-set commit, the
transform invocation, local deletions, the upload attempt, and the
best-effort description link-back. -/
inductive Ev where
  | acquire
  | commit (url : String)
  | transform
  | deleteInput
  | publish
  | linkBack
  | deleteOutput
deriving DecidableEq

/-- Step outcomes for one process_video run: client setup, download
result, the on-disk non-empty verification, the log append, the OAuth
service setup, and the upload result. -/
structure Env where
  clientOk : Bool
  downloadOk : Bool
  fileNonEmpty : Bool
  writeOk : Bool
  authOk : Bool
  uploadOk : Bool
deriving DecidableEq

/-- process_video (src/app.py lines 723-803): skip when the client fails,
no candidate is found, or the candidate is already processed; download;
on a verified non-empty file append the URL to the log (line 763), then
run ffmpeg, delete the input, authenticate, upload; on upload success
link back and delete the output, otherwise keep the local file. -/
def process_video (env : Env) (cand : Option Candidate) (log0 : String) :
    String × List (Ev × String) :=
  if env.clientOk = false then (log0, [])
  else
    match cand with
    | none => (log0, [])
    | some c =>
      if c.url ∈ processedOf log0 then (log0, [])
      else
        if env.downloadOk = false then (log0, [(Ev.acquire, log0)])
        else if env.fileNonEmpty = false then (log0, [(Ev.acquire, log0)])
        else
          let log1 := save_processed_url log0 c.url
            (if env.writeOk then WriteOutcome.ok else WriteOutcome.ioError)
          let tr1 := [(Ev.acquire, log0), (Ev.commit c.url, log1),
            (Ev.transform, log1), (Ev.deleteInput, log1)]
          if env.authOk = false then (log1, tr1)
          else
            let tr2 := tr1 ++ [(Ev.publish, log1)]
            if env.uploadOk then
              (log1, tr2 ++ [(Ev.linkBack, log1), (Ev.deleteOutput, log1)])
            else (log1, tr2)

/-- Step outcomes for one process_livestream run: download result,
whether the ffmpeg output file exists, OAuth setup, upload result, and
the log append. -/
structure OldEnv where
  downloadOk : Bool
  ffmpegOutOk : Bool
  authOk : Bool
  uploadOk : Bool
  writeOk : Bool
deriving DecidableEq

/-- process_livestream (src/app_old_streams.py lines 365-434): download;
ffmpeg with an output-existence check (failure cleans up the input and
returns False); delete the input; authenticate (failure propagates);
upload; on success link back, append the URL to the log (line 421,
after the upload), remove it from the pending list, and delete the
output; on upload failure the cleanup still deletes the output and the
final return of the never-assigned upload_success raises, modelled as a
none result. -/
def process_livestream (env : OldEnv) (c : OldCand) (log0 : String) :
    String × List (Ev × String) × Option Bool :=
  if env.downloadOk = false then (log0, [(Ev.acquire, log0)], some false)
  else
    if env.ffmpegOutOk = false then
      (log0, [(Ev.acquire, log0), (Ev.transform, log0), (Ev.deleteInput, log0)],
        some false)
    else
      let tr1 := [(Ev.acquire, log0), (Ev.transform, log0), (Ev.deleteInput, log0)]
      if env.authOk = false then (log0, tr1, none)
      else
        let tr2 := tr1 ++ [(Ev.publish, log0)]
        if env.uploadOk then
          let log1 := save_processed_url log0 c.url
            (if env.writeOk then WriteOutcome.ok else WriteOutcome.ioError)
          (log1, tr2 ++ [(Ev.linkBack, log0), (Ev.commit c.url, log1),
            (Ev.deleteOutput, log1)], some true)
        else
          (log0, tr2 ++ [(Ev.deleteOutput, log0)], none)

/-- A concrete candidate for orchestrator examples. -/
def candW : Candidate :=
  ⟨"x1", mkUrl "x1", "T", "2025-05-01T00:00:00Z", "2025-05-02T00:00:00Z"⟩

/-- A concrete old-pipeline livestream record. -/
def candOldX : OldCand :=
  ⟨"x1", mkUrl "x1", "T", "2025-01-01T00:00:00Z", "2025-01-02T00:00:00Z"⟩

/-- C1 counterexample: a process_livestream run (the batch orchestrator
of src/app_old_streams.py, cited by the claim) attempts publish while
the candidate URL is not yet in the Processed-Set, refuting the claim
that in every pipeline run the URL is committed before publish. -/
theorem commit_before_publish_cx :
    (Ev.publish, "") ∈
      (process_livestream ⟨true, true, true, true, true⟩ candOldX "").2.1 ∧
    candOldX.url ∉ processedOf "" := by
  constructor
  · decide
  · decide

/-- C1 (amended): in process_video of src/app.py, whenever the run
reaches acquisition, verifies the non-empty download and the append
succeeds, the URL is committed to the Processed-Set immediately after
the verification and strictly before transform, input cleanup and
publish; every publish attempt sees the URL already in the set; and the
URL is still in the set when the run ends, whatever the transform or
publish outcome.  In process_livestream of src/app_old_streams.py the
commit instead happens only after a successful publish. -/
theorem commit_before_publish :
    (∀ (env : Env) (c : Candidate) (log0 : String),
      env.clientOk = true → env.downloadOk = true → env.fileNonEmpty = true →
      env.writeOk = true → c.url ∉ processedOf log0 → logWf log0 → urlWf c.url →
      (process_video env (some c) log0).2.take 4 =
        [(Ev.acquire, log0), (Ev.commit c.url, log0 ++ c.url ++ "
"),
         (Ev.transform, log0 ++ c.url ++ "
"),
         (Ev.deleteInput, log0 ++ c.url ++ "
")] ∧
      (∀ s, (Ev.publish, s) ∈ (process_video env (some c) log0).2 →
        c.url ∈ processedOf s) ∧
      (env.authOk = true →
        (Ev.publish, log0 ++ c.url ++ "
") ∈ (process_video env (some c) log0).2) ∧
      c.url ∈ processedOf (process_video env (some c) log0).1) ∧
    (∀ (env : OldEnv) (c : OldCand) (log0 s : String),
      (Ev.commit c.url, s) ∈ (process_livestream env c log0).2.1 →
      env.uploadOk = true) := by
  constructor
  · intro env c log0 hco hdk hfne hwo hmem hwf hurl
    rcases env with ⟨co, dk, fne, wo, ao, uo⟩
    simp only at hco hdk hfne hwo
    subst hco
    subst hdk
    subst hfne
    subst hwo
    have hsave : save_processed_url log0 c.url
        (if (true : Bool) then WriteOutcome.ok else WriteOutcome.ioError) =
        log0 ++ c.url ++ "
" := rfl
    have hmem1 : c.url ∈ processedOf (log0 ++ c.url ++ "
") :=
      mem_processedOf_append hwf hurl
    cases ao with
    | false =>
      have hred : process_video ⟨true, true, true, true, false, uo⟩ (some c) log0 =
          (log0 ++ c.url ++ "
",
           [(Ev.acquire, log0), (Ev.commit c.url, log0 ++ c.url ++ "
"),
            (Ev.transform, log0 ++ c.url ++ "
"),
            (Ev.deleteInput, log0 ++ c.url ++ "
")]) := by
        simp [process_video, save_processed_url, hmem]
      rw [hred]
      refine ⟨rfl, ?_, ?_, hmem1⟩
      · intro s hs
        simp at hs
      · intro hao
        cases hao
    | true =>
      cases uo with
      | false =>
        have hred : process_video ⟨true, true, true, true, true, false⟩ (some c) log0 =
            (log0 ++ c.url ++ "
",
             [(Ev.acquire, log0), (Ev.commit c.url, log0 ++ c.url ++ "
"),
              (Ev.transform, log0 ++ c.url ++ "
"),
              (Ev.deleteInput, log0 ++ c.url ++ "
"),
              (Ev.publish, log0 ++ c.url ++ "
")]) := by
          simp [process_video, save_processed_url, hmem]
        rw [hred]
        refine ⟨rfl, ?_, ?_, hmem1⟩
        · intro s hs
          simp at hs
          rw [hs]
          exact hmem1
        · intro _
          simp
      | true =>
        have hred : process_video ⟨true, true, true, true, true, true⟩ (some c) log0 =
            (log0 ++ c.url ++ "
",
             [(Ev.acquire, log0), (Ev.commit c.url, log0 ++ c.url ++ "
"),
              (Ev.transform, log0 ++ c.url ++ "
"),
              (Ev.deleteInput, log0 ++ c.url ++ "
"),
              (Ev.publish, log0 ++ c.url ++ "
"),
              (Ev.linkBack, log0 ++ c.url ++ "
"),
              (Ev.deleteOutput, log0 ++ c.url ++ "
")]) := by
          simp [process_video, save_processed_url, hmem]
        rw [hred]
        refine ⟨rfl, ?_, ?_, hmem1⟩
        · intro s hs
          simp at hs
          rw [hs]
          exact hmem1
        · intro _
          simp
  · intro env c log0 s h
    rcases env with ⟨dk, fo, ao, uo⟩
    cases dk with
    | false => simp [process_livestream] at h
    | true =>
      cases fo with
      | false => simp [process_livestream] at h
      | true =>
        cases ao with
        | false => simp [process_livestream] at h
        | true =>
          cases uo with
          | false => simp [process_livestream] at h
          | true => rfl

/-- Witness for C1 (amended) at a concrete run with a successful
download, verification and append, and a failing upload. -/
theorem commit_before_publish_witness :
    (candW.url ∉ processedOf "") ∧ logWf "" ∧ urlWf candW.url ∧
    ((process_video ⟨true, true, true, true, true, false⟩ (some candW) "").2.take 4 =
      [(Ev.acquire, ""), (Ev.commit candW.url, "" ++ candW.url ++ "
"),
       (Ev.transform, "" ++ candW.url ++ "
"),
       (Ev.deleteInput, "" ++ candW.url ++ "
")] ∧
     (∀ s, (Ev.publish, s) ∈
        (process_video ⟨true, true, true, true, true, false⟩ (some candW) "").2 →
        candW.url ∈ processedOf s) ∧
     ((true : Bool) = true → (Ev.publish, "" ++ candW.url ++ "
") ∈
        (process_video ⟨true, true, true, true, true, false⟩ (some candW) "").2) ∧
     candW.url ∈ processedOf
        (process_video ⟨true, true, true, true, true, false⟩ (some candW) "").1) :=
  ⟨by decide, Or.inl rfl, ⟨by decide, by decide, by decide, by decide⟩,
    commit_before_publish.1 ⟨true, true, true, true, true, false⟩ candW "" rfl rfl rfl rfl
      (by decide) (Or.inl rfl) ⟨by decide, by decide, by decide, by decide⟩⟩

/-- C5 evaluation: process_video of src/app.py keeps the transformed
artifact on publish failure (no deleteOutput event) and deletes it on
publish success, as the claim states; but process_livestream of
src/app_old_streams.py, at the failing input (download, transform and
auth succeed, upload fails), deletes the transformed artifact during its
unconditional cleanup right after logging that it keeps it, and the run
then ends in the UnboundLocalError modelled as a none result. -/
theorem publish_failure_retention_eval :
    ((process_video ⟨true, true, true, true, true, false⟩ (some candW) "").2.all
      (fun e => !(e.1 == Ev.deleteOutput)) = true) ∧
    ((process_video ⟨true, true, true, true, true, true⟩ (some candW) "").2.any
      (fun e => e.1 == Ev.deleteOutput) = true) ∧
    ((process_livestream ⟨true, true, true, false, true⟩ candOldX "").2.1.any
      (fun e => e.1 == Ev.deleteOutput) = true) ∧
    (process_livestream ⟨true, true, true, false, true⟩ candOldX "").2.2 = none := by
  refine ⟨by decide, by decide, by decide, by decide⟩

end YtTimelapse
